import Mathlib

/-!
# Consistent hashing ring with node rebalancing: a shallow embedding

This file embeds the core of the repository (hash_ring.py, rebalancer.py)
into Lean 4 and proves the specified properties of the ring operations.

Modelling conventions:
* Python `dict`s become association lists (`List (k × v)`); the embedding
  maintains (and proves) that their key lists are duplicate-free, which is
  how they model Python dictionaries faithfully.
* The hash function is the `hash_fn` constructor parameter of `HashRing`
  (the source default is SHA-1 truncated to 32 bits; the ring logic never
  depends on the particular function, only on its determinism, so it is
  kept abstract as a `String → Nat` field).
* `bisect.bisect_left` is embedded by its contract on sorted lists: the
  length of the prefix of elements smaller than the probe (the leftmost
  insertion point).  The ring only ever calls it on its sorted `_positions`
  list, where this coincides with the library binary search.
* The collision-probing `while` loop of `add_node` can fail to terminate
  for degenerate hash functions, so `add_node` takes a fuel parameter and
  returns `none` when the loop has not finished within the fuel; `some`
  results agree with the Python behaviour whenever the loop terminates.
* Python exceptions become `Except RingError` results; an error result
  leaves the caller's ring unchanged, matching the source, which raises
  its user-facing errors before any mutation.
* Python floats are modelled by exact rationals (`ℚ`); `math.sqrt` inside
  `statistics.pstdev` is modelled by `Real.sqrt`.
-/

/-- Error kinds of the design (§7 of the spec), covering the `ValueError`s
and `RuntimeError` raised by `hash_ring.py` and `rebalancer.py`. -/
inductive RingError where
  | InvalidConfiguration
  | DuplicateNode
  | NodeNotFound
  | EmptyRing
  | RingCorruption
  | KeySetMismatch
deriving DecidableEq

/-- `Node` from hash_ring.py: physical node identity. -/
structure Node where
  node_id : String
deriving DecidableEq

/-- `VNode` from hash_ring.py: virtual node identity. -/
structure VNode where
  physical : Node
  replica_index : Nat
deriving DecidableEq

/-- `VNode.vnode_key`: the ring key `f"{node_id}#vn{replica_index}"`. -/
def VNode.vnode_key (v : VNode) : String :=
  v.physical.node_id ++ "#vn" ++ toString v.replica_index

/-- First-match lookup in an association list; models `d[k]` / `k in d`
for a Python dict represented with duplicate-free keys. -/
def alookup {α β : Type} [DecidableEq α] : List (α × β) → α → Option β
  | [], _ => none
  | (k, v) :: t, a => if k = a then some v else alookup t a

/-- Dict assignment `d[k] = v`: replaces the value at an existing key,
otherwise appends the binding (Python dicts keep insertion order). -/
def insertA {α β : Type} [DecidableEq α] : List (α × β) → α → β → List (α × β)
  | [], a, b => [(a, b)]
  | (k, v) :: t, a, b => if k = a then (k, b) :: t else (k, v) :: insertA t a b

/-- Dict removal `d.pop(k, None)` / `del d[k]`: removes the first binding
of the key when present, otherwise leaves the list unchanged. -/
def eraseA {α β : Type} [DecidableEq α] : List (α × β) → α → List (α × β)
  | [], _ => []
  | (k, v) :: t, a => if k = a then t else (k, v) :: eraseA t a

/-- `bisect.bisect_left(l, x)` by its contract on a sorted list: the number
of leading elements smaller than `x`, i.e. the leftmost insertion point. -/
def bisect_left : List Nat → Nat → Nat
  | [], _ => 0
  | a :: t, x => if a < x then bisect_left t x + 1 else 0

/-- `list.insert(idx, x)`: insert `x` before index `idx`, appending when
`idx` is past the end. -/
def insertAt : List Nat → Nat → Nat → List Nat
  | l, 0, x => x :: l
  | [], _ + 1, x => [x]
  | a :: t, i + 1, x => a :: insertAt t i x

/-- `list.pop(idx)` (the resulting list): drop the element at index `idx`. -/
def removeAt : List Nat → Nat → List Nat
  | [], _ => []
  | _ :: t, 0 => t
  | a :: t, i + 1 => a :: removeAt t i

/-- `HashRing` state from hash_ring.py: the configured virtual-node count,
the injected hash function, the sorted `_positions` list, the
`_vnode_at` dict and the `_positions_by_node` dict. -/
structure HashRing where
  vnodes_per_node : Nat
  hash_fn : String → Nat
  positions : List Nat
  vnode_at : List (Nat × VNode)
  positions_by_node : List (String × List Nat)

/-- `HashRing.__init__`: rejects `vnodes_per_node <= 0` (an `Int`, since the
source accepts negative arguments) and otherwise starts empty. -/
def mkHashRing (vnodes_per_node : Int) (hash_fn : String → Nat) :
    Except RingError HashRing :=
  if vnodes_per_node ≤ 0 then .error .InvalidConfiguration
  else .ok { vnodes_per_node := vnodes_per_node.toNat, hash_fn := hash_fn,
             positions := [], vnode_at := [], positions_by_node := [] }

/-- The ring key hashed at probing attempt `a`: the vnode key itself at
attempt `0`, and `f"{vnode_key}@{attempt}"` afterwards. -/
def candidateKey (vkey : String) (attempt : Nat) : String :=
  if attempt = 0 then vkey else vkey ++ "@" ++ toString attempt

/-- The collision-probing `while` loop of `add_node`: starting at the given
attempt, return the first candidate position not occupied in `va`.
`none` means the loop did not finish within `fuel` steps. -/
def probe (hash : String → Nat) (va : List (Nat × VNode)) (vkey : String) :
    Nat → Nat → Option Nat
  | _, 0 => none
  | attempt, fuel + 1 =>
    let pos := hash (candidateKey vkey attempt)
    if (alookup va pos).isSome then probe hash va vkey (attempt + 1) fuel
    else some pos

/-- The mutable loop state of `add_node`: the growing `_positions`,
`_vnode_at` and the node's `pos_list`. -/
structure AddState where
  positions : List Nat
  vnode_at : List (Nat × VNode)
  pos_list : List Nat

/-- One iteration of `add_node`'s `for i in range(K)` body: probe a free
position for replica `i`, insert it into the sorted positions at the
`bisect_left` index, record the vnode and append to the node's list. -/
def placeOne (hash : String → Nat) (fuel : Nat) (node : Node) (st : AddState)
    (i : Nat) : Option AddState :=
  match probe hash st.vnode_at (VNode.vnode_key ⟨node, i⟩) 0 fuel with
  | none => none
  | some pos =>
    some ⟨insertAt st.positions (bisect_left st.positions pos) pos,
          insertA st.vnode_at pos ⟨node, i⟩,
          st.pos_list ++ [pos]⟩

/-- `add_node`'s `for i in range(K)` loop, with `n` replicas left to place
starting at replica index `i`. -/
def placeFrom (hash : String → Nat) (fuel : Nat) (node : Node) :
    AddState → Nat → Nat → Option AddState
  | st, _, 0 => some st
  | st, i, n + 1 =>
    match placeOne hash fuel node st i with
    | none => none
    | some st' => placeFrom hash fuel node st' (i + 1) n

/-- `HashRing.add_node`: duplicate check, then placement of all
`vnodes_per_node` replicas, then registration of the node's position list.
`none` means a probing loop exhausted the fuel (the Python loop had not
terminated after `fuel` iterations). -/
def add_node (fuel : Nat) (r : HashRing) (node : Node) :
    Option (Except RingError HashRing) :=
  if (alookup r.positions_by_node node.node_id).isSome then
    some (.error .DuplicateNode)
  else
    match placeFrom r.hash_fn fuel node ⟨r.positions, r.vnode_at, []⟩ 0
        r.vnodes_per_node with
    | none => none
    | some st =>
      some (.ok { r with
        positions := st.positions,
        vnode_at := st.vnode_at,
        positions_by_node := insertA r.positions_by_node node.node_id st.pos_list })

/-- The body of `remove_node`'s loop over the node's positions: pop each
position from `_vnode_at`, find it in `_positions` by `bisect_left`,
raise `Ring corruption` if it is not there, and pop it. -/
def removeLoop :
    List (Nat × VNode) → List Nat → List Nat →
      Except RingError (List (Nat × VNode) × List Nat)
  | va, ps, [] => .ok (va, ps)
  | va, ps, pos :: rest =>
    let va' := eraseA va pos
    let idx := bisect_left ps pos
    if h : idx < ps.length then
      if ps.get ⟨idx, h⟩ = pos then removeLoop va' (removeAt ps idx) rest
      else .error .RingCorruption
    else .error .RingCorruption

/-- `HashRing.remove_node`: unknown-node check, then removal of every
position in the node's list, then deletion of the node's entry. -/
def remove_node (r : HashRing) (node_id : String) : Except RingError HashRing :=
  match alookup r.positions_by_node node_id with
  | none => .error .NodeNotFound
  | some pl =>
    match removeLoop r.vnode_at r.positions pl with
    | .error e => .error e
    | .ok (va, ps) =>
      .ok { r with vnode_at := va, positions := ps,
                   positions_by_node := eraseA r.positions_by_node node_id }

/-- `HashRing.get_node_for_key`: empty check, successor search by
`bisect_left` with wrap-around to index 0, then the owning physical node.
A missing `_vnode_at` entry would be a `KeyError` in the source; it is
modelled as the internal `RingCorruption` error and proved unreachable. -/
def get_node_for_key (r : HashRing) (key : String) : Except RingError Node :=
  if r.positions.isEmpty then .error .EmptyRing
  else
    let h := r.hash_fn key
    let idx0 := bisect_left r.positions h
    let idx := if idx0 = r.positions.length then 0 else idx0
    match alookup r.vnode_at (r.positions.getD idx 0) with
    | some vnode => .ok vnode.physical
    | none => .error .RingCorruption

/-- Insertion into a lexicographically sorted list of strings. -/
def insertSorted (x : String) : List String → List String
  | [] => [x]
  | a :: t => if x ≤ a then x :: a :: t else a :: insertSorted x t

/-- `sorted` on a list of strings (insertion sort). -/
def sortStrings : List String → List String
  | [] => []
  | a :: t => insertSorted a (sortStrings t)

/-- `HashRing.list_nodes`: the node identifiers, sorted. -/
def list_nodes (r : HashRing) : List String :=
  sortStrings (r.positions_by_node.map Prod.fst)

/-- `HashRing.total_vnodes`. -/
def total_vnodes (r : HashRing) : Nat :=
  r.positions.length

/-- `HashRing.__len__`: the number of physical nodes. -/
def node_count (r : HashRing) : Nat :=
  r.positions_by_node.length

/-- The ring states reachable through the public operations: a freshly
constructed ring, and the successful results of `add_node` and
`remove_node` on reachable states. -/
inductive Reachable : HashRing → Prop where
  | init (K : Int) (hash : String → Nat) (r : HashRing) :
      mkHashRing K hash = .ok r → Reachable r
  | add (r : HashRing) (node : Node) (fuel : Nat) (r' : HashRing) :
      Reachable r → add_node fuel r node = some (.ok r') → Reachable r'
  | remove (r : HashRing) (nid : String) (r' : HashRing) :
      Reachable r → remove_node r nid = .ok r' → Reachable r'

/-- The ring's internal consistency invariant: `_positions` is strictly
ascending; a position is listed exactly when `_vnode_at` maps it; both
dicts have duplicate-free keys; every placed vnode's owner is registered
and lists that position; and each registered node's list has exactly
`vnodes_per_node` positions, the `i`-th carrying its replica-`i` vnode. -/
structure RingInv (r : HashRing) : Prop where
  sorted_pos : r.positions.Pairwise (fun a b => a < b)
  pos_iff : ∀ p, p ∈ r.positions ↔ (alookup r.vnode_at p).isSome
  vn_keys_nodup : (r.vnode_at.map Prod.fst).Nodup
  node_keys_nodup : (r.positions_by_node.map Prod.fst).Nodup
  vn_owner : ∀ p vn, alookup r.vnode_at p = some vn →
    ∃ pl, alookup r.positions_by_node vn.physical.node_id = some pl ∧ p ∈ pl
  owner_spec : ∀ nid pl, alookup r.positions_by_node nid = some pl →
    pl.length = r.vnodes_per_node ∧
    ∀ i, ∀ h : i < pl.length,
      alookup r.vnode_at (pl.get ⟨i, h⟩) = some ⟨⟨nid⟩, i⟩

/-! ## Association-list lemmas -/

theorem alookup_isSome_iff_mem {α β : Type} [DecidableEq α]
    (l : List (α × β)) (a : α) :
    (alookup l a).isSome ↔ a ∈ l.map Prod.fst := by
  induction l with
  | nil => simp [alookup]
  | cons p t ih =>
    obtain ⟨k, v⟩ := p
    by_cases h : k = a
    · subst h
      simp [alookup]
    · simp only [alookup, if_neg h, List.map_cons, List.mem_cons, ih]
      constructor
      · exact fun hm => Or.inr hm
      · rintro (rfl | hm)
        · exact absurd rfl h
        · exact hm

theorem alookup_eq_none_iff_notMem {α β : Type} [DecidableEq α]
    (l : List (α × β)) (a : α) :
    alookup l a = none ↔ a ∉ l.map Prod.fst := by
  rw [← alookup_isSome_iff_mem]
  cases alookup l a <;> simp

theorem alookup_insertA_self {α β : Type} [DecidableEq α]
    (l : List (α × β)) (a : α) (b : β) :
    alookup (insertA l a b) a = some b := by
  induction l with
  | nil => simp [insertA, alookup]
  | cons p t ih =>
    obtain ⟨k, v⟩ := p
    by_cases h : k = a <;> simp [insertA, alookup, h, ih]

theorem alookup_insertA_ne {α β : Type} [DecidableEq α]
    (l : List (α × β)) (a a' : α) (b : β) (h : a' ≠ a) :
    alookup (insertA l a b) a' = alookup l a' := by
  induction l with
  | nil => simp [insertA, alookup, Ne.symm h]
  | cons p t ih =>
    obtain ⟨k, v⟩ := p
    by_cases hk : k = a
    · subst hk
      simp [insertA, alookup, Ne.symm h]
    · simp [insertA, alookup, hk, ih]

theorem insertA_of_none {α β : Type} [DecidableEq α]
    (l : List (α × β)) (a : α) (b : β) (h : alookup l a = none) :
    insertA l a b = l ++ [(a, b)] := by
  induction l with
  | nil => simp [insertA]
  | cons p t ih =>
    obtain ⟨k, v⟩ := p
    by_cases hk : k = a
    · simp [alookup, hk] at h
    · simp [alookup, hk] at h
      simp [insertA, hk, ih h]

theorem length_insertA_of_none {α β : Type} [DecidableEq α]
    (l : List (α × β)) (a : α) (b : β) (h : alookup l a = none) :
    (insertA l a b).length = l.length + 1 := by
  rw [insertA_of_none l a b h]
  simp

theorem keys_insertA_of_none {α β : Type} [DecidableEq α]
    (l : List (α × β)) (a : α) (b : β) (h : alookup l a = none) :
    (insertA l a b).map Prod.fst = l.map Prod.fst ++ [a] := by
  rw [insertA_of_none l a b h]
  simp

theorem nodup_keys_insertA_of_none {α β : Type} [DecidableEq α]
    (l : List (α × β)) (a : α) (b : β) (h : alookup l a = none)
    (hn : (l.map Prod.fst).Nodup) : ((insertA l a b).map Prod.fst).Nodup := by
  rw [keys_insertA_of_none l a b h]
  have ha : a ∉ l.map Prod.fst := (alookup_eq_none_iff_notMem l a).mp h
  rw [List.nodup_append]
  refine ⟨hn, List.nodup_singleton a, ?_⟩
  intro x hx hx'
  rw [List.mem_singleton] at hx'
  exact ha (hx' ▸ hx)

theorem keys_eraseA_sublist {α β : Type} [DecidableEq α]
    (l : List (α × β)) (a : α) :
    ((eraseA l a).map Prod.fst).Sublist (l.map Prod.fst) := by
  induction l with
  | nil => simp [eraseA]
  | cons p t ih =>
    obtain ⟨k, v⟩ := p
    by_cases h : k = a
    · simp [eraseA, h]
    · simpa [eraseA, h] using ih.cons₂ k

theorem nodup_keys_eraseA {α β : Type} [DecidableEq α]
    (l : List (α × β)) (a : α) (hn : (l.map Prod.fst).Nodup) :
    ((eraseA l a).map Prod.fst).Nodup :=
  (keys_eraseA_sublist l a).nodup hn

theorem alookup_eraseA_self {α β : Type} [DecidableEq α]
    (l : List (α × β)) (a : α) (hn : (l.map Prod.fst).Nodup) :
    alookup (eraseA l a) a = none := by
  induction l with
  | nil => simp [eraseA, alookup]
  | cons p t ih =>
    obtain ⟨k, v⟩ := p
    simp only [List.map_cons, List.nodup_cons] at hn
    by_cases h : k = a
    · subst h
      rw [eraseA, if_pos rfl, alookup_eq_none_iff_notMem]
      exact hn.1
    · simp [eraseA, alookup, h, ih hn.2]

theorem alookup_eraseA_ne {α β : Type} [DecidableEq α]
    (l : List (α × β)) (a a' : α) (h : a' ≠ a) :
    alookup (eraseA l a) a' = alookup l a' := by
  induction l with
  | nil => simp [eraseA]
  | cons p t ih =>
    obtain ⟨k, v⟩ := p
    by_cases hk : k = a
    · subst hk
      simp [eraseA, alookup, Ne.symm h]
    · simp [eraseA, alookup, hk, ih]

theorem length_eraseA_of_isSome {α β : Type} [DecidableEq α]
    (l : List (α × β)) (a : α) (h : (alookup l a).isSome) :
    (eraseA l a).length + 1 = l.length := by
  induction l with
  | nil => simp [alookup] at h
  | cons p t ih =>
    obtain ⟨k, v⟩ := p
    by_cases hk : k = a
    · simp [eraseA, hk]
    · simp only [alookup, if_neg hk] at h
      simp [eraseA, hk, ih h]

/-! ## Lemmas about `bisect_left`, `insertAt` and `removeAt` -/

theorem bisect_le_length (l : List Nat) (x : Nat) : bisect_left l x ≤ l.length := by
  induction l with
  | nil => simp [bisect_left]
  | cons a t ih =>
    by_cases h : a < x
    · simp only [bisect_left, if_pos h, List.length_cons]
      omega
    · simp [bisect_left, h]

theorem bisect_lt (l : List Nat) (x : Nat) (j : Nat) (hj : j < bisect_left l x) :
    l.getD j 0 < x := by
  induction l generalizing j with
  | nil => simp [bisect_left] at hj
  | cons a t ih =>
    by_cases h : a < x
    · cases j with
      | zero => simpa using h
      | succ j =>
        simp only [bisect_left, if_pos h] at hj
        simpa using ih j (by omega)
    · simp [bisect_left, h] at hj

theorem bisect_ge (l : List Nat) (x : Nat) (h : bisect_left l x < l.length) :
    x ≤ l.getD (bisect_left l x) 0 := by
  induction l with
  | nil => simp [bisect_left] at h
  | cons a t ih =>
    by_cases ha : a < x
    · simp only [bisect_left, if_pos ha, List.length_cons] at h
      simpa [bisect_left, ha] using ih (by omega)
    · simp [bisect_left, ha]
      omega

theorem bisect_eq_length_all_lt (l : List Nat) (x : Nat)
    (h : bisect_left l x = l.length) : ∀ q ∈ l, q < x := by
  induction l with
  | nil => simp
  | cons a t ih =>
    by_cases ha : a < x
    · simp only [bisect_left, if_pos ha, List.length_cons, Nat.add_right_cancel_iff] at h
      intro q hq
      rcases List.mem_cons.mp hq with hq | hq
      · omega
      · exact ih h q hq
    · simp [bisect_left, ha] at h

theorem getD_sorted_mono (l : List Nat) (hs : l.Pairwise (fun a b => a < b))
    (i j : Nat) (hij : i < j) (hj : j < l.length) : l.getD i 0 < l.getD j 0 := by
  have hi : i < l.length := by omega
  have := (List.pairwise_iff_get.mp hs) ⟨i, hi⟩ ⟨j, hj⟩ hij
  simpa [List.getD_eq_getElem, hi, hj] using this

theorem bisect_found (l : List Nat) (x : Nat)
    (hs : l.Pairwise (fun a b => a < b)) (hx : x ∈ l) :
    bisect_left l x < l.length ∧ l.getD (bisect_left l x) 0 = x := by
  induction l with
  | nil => simp at hx
  | cons a t ih =>
    rw [List.pairwise_cons] at hs
    by_cases ha : a < x
    · have hxt : x ∈ t := by
        rcases List.mem_cons.mp hx with rfl | hxt
        · omega
        · exact hxt
      obtain ⟨h1, h2⟩ := ih hs.2 hxt
      simp only [bisect_left, if_pos ha, List.length_cons]
      exact ⟨by omega, by simpa using h2⟩
    · have hax : x = a := by
        rcases List.mem_cons.mp hx with rfl | hxt
        · rfl
        · exact absurd (hs.1 x hxt) ha
      simp [bisect_left, ha, hax]

theorem length_insertAt (l : List Nat) (i x : Nat) :
    (insertAt l i x).length = l.length + 1 := by
  induction l generalizing i with
  | nil => cases i <;> simp [insertAt]
  | cons a t ih =>
    cases i with
    | zero => simp [insertAt]
    | succ i => simp [insertAt, ih]

theorem mem_insertAt_bisect (l : List Nat) (x y : Nat) :
    y ∈ insertAt l (bisect_left l x) x ↔ y = x ∨ y ∈ l := by
  induction l with
  | nil => simp [bisect_left, insertAt]
  | cons a t ih =>
    by_cases ha : a < x
    · simp only [bisect_left, if_pos ha, insertAt, List.mem_cons, ih]
      tauto
    · simp only [bisect_left, if_neg ha, insertAt, List.mem_cons]

theorem pairwise_insertAt_bisect (l : List Nat) (x : Nat)
    (hs : l.Pairwise (fun a b => a < b)) (hx : x ∉ l) :
    (insertAt l (bisect_left l x) x).Pairwise (fun a b => a < b) := by
  induction l with
  | nil => simp [bisect_left, insertAt]
  | cons a t ih =>
    rw [List.pairwise_cons] at hs
    have hxa : x ≠ a := fun h => hx (h ▸ List.mem_cons_self a t)
    have hxt : x ∉ t := fun h => hx (List.mem_cons_of_mem a h)
    by_cases ha : a < x
    · simp only [bisect_left, if_pos ha, insertAt]
      rw [List.pairwise_cons]
      refine ⟨?_, ih hs.2 hxt⟩
      intro b hb
      rcases (mem_insertAt_bisect t x b).mp hb with rfl | hbt
      · exact ha
      · exact hs.1 b hbt
    · simp only [bisect_left, if_neg ha, insertAt]
      rw [List.pairwise_cons]
      refine ⟨?_, List.pairwise_cons.mpr hs⟩
      intro b hb
      rcases List.mem_cons.mp hb with rfl | hbt
      · omega
      · exact lt_of_le_of_lt (by omega) (hs.1 b hbt)

theorem removeAt_bisect_eq_erase (l : List Nat) (x : Nat)
    (hs : l.Pairwise (fun a b => a < b)) (hx : x ∈ l) :
    removeAt l (bisect_left l x) = l.erase x := by
  induction l with
  | nil => simp at hx
  | cons a t ih =>
    rw [List.pairwise_cons] at hs
    by_cases ha : a < x
    · have hxa : x ≠ a := by omega
      have hxt : x ∈ t := by
        rcases List.mem_cons.mp hx with rfl | hxt
        · omega
        · exact hxt
      simp only [bisect_left, if_pos ha, removeAt, ih hs.2 hxt]
      rw [List.erase_cons_tail]
      simp [Ne.symm hxa]
    · have hax : x = a := by
        rcases List.mem_cons.mp hx with rfl | hxt
        · rfl
        · exact absurd (hs.1 x hxt) ha
      subst hax
      simp [bisect_left, removeAt]

/-! ## The collision-probing loop -/

theorem probe_spec (hash : String → Nat) (va : List (Nat × VNode)) (vkey : String) :
    ∀ fuel attempt pos, probe hash va vkey attempt fuel = some pos →
      alookup va pos = none ∧
      ∃ a, attempt ≤ a ∧ pos = hash (candidateKey vkey a) ∧
        ∀ b, attempt ≤ b → b < a →
          (alookup va (hash (candidateKey vkey b))).isSome := by
  intro fuel
  induction fuel with
  | zero =>
    intro attempt pos h
    simp [probe] at h
  | succ fuel ih =>
    intro attempt pos h
    simp only [probe] at h
    by_cases hocc : (alookup va (hash (candidateKey vkey attempt))).isSome
    · rw [if_pos hocc] at h
      obtain ⟨hnone, a, ha1, ha2, ha3⟩ := ih (attempt + 1) pos h
      refine ⟨hnone, a, by omega, ha2, ?_⟩
      intro b hb1 hb2
      by_cases hba : b = attempt
      · subst hba
        exact hocc
      · exact ha3 b (by omega) hb2
    · rw [if_neg hocc] at h
      obtain rfl : hash (candidateKey vkey attempt) = pos := Option.some.inj h
      refine ⟨Option.not_isSome_iff_eq_none.mp hocc, attempt, le_refl _, rfl, ?_⟩
      intro b hb1 hb2
      omega

/-! ## The placement loop of `add_node` -/

theorem placeOne_eq (hash : String → Nat) (fuel : Nat) (node : Node)
    (st : AddState) (i : Nat) (st₁ : AddState)
    (h : placeOne hash fuel node st i = some st₁) :
    ∃ pos, probe hash st.vnode_at (VNode.vnode_key ⟨node, i⟩) 0 fuel = some pos ∧
      st₁ = ⟨insertAt st.positions (bisect_left st.positions pos) pos,
             insertA st.vnode_at pos ⟨node, i⟩, st.pos_list ++ [pos]⟩ := by
  unfold placeOne at h
  cases hp : probe hash st.vnode_at (VNode.vnode_key ⟨node, i⟩) 0 fuel with
  | none =>
    rw [hp] at h
    cases h
  | some pos =>
    rw [hp] at h
    exact ⟨pos, rfl, (Option.some.inj h).symm⟩

theorem placeOne_core (hash : String → Nat) (fuel : Nat) (node : Node)
    (st : AddState) (i : Nat) (st₁ : AddState)
    (h : placeOne hash fuel node st i = some st₁)
    (hs : st.positions.Pairwise (fun a b => a < b))
    (hio : ∀ p, p ∈ st.positions ↔ (alookup st.vnode_at p).isSome)
    (hn : (st.vnode_at.map Prod.fst).Nodup) :
    st₁.positions.Pairwise (fun a b => a < b) ∧
    (∀ p, p ∈ st₁.positions ↔ (alookup st₁.vnode_at p).isSome) ∧
    (st₁.vnode_at.map Prod.fst).Nodup := by
  obtain ⟨pos, hp, rfl⟩ := placeOne_eq hash fuel node st i st₁ h
  have hfree : alookup st.vnode_at pos = none :=
    (probe_spec hash st.vnode_at _ fuel 0 pos hp).1
  have hnotmem : pos ∉ st.positions := by
    intro hmem
    rw [hio pos, hfree] at hmem
    simp at hmem
  refine ⟨pairwise_insertAt_bisect _ _ hs hnotmem, ?_, ?_⟩
  · intro p
    rw [mem_insertAt_bisect]
    by_cases hpp : p = pos
    · subst hpp
      simp [alookup_insertA_self]
    · rw [alookup_insertA_ne _ _ _ _ hpp]
      simp only [hpp, false_or]
      exact hio p
  · exact nodup_keys_insertA_of_none _ _ _ hfree hn

theorem placeFrom_core (hash : String → Nat) (fuel : Nat) (node : Node) :
    ∀ n st i st', placeFrom hash fuel node st i n = some st' →
      st.positions.Pairwise (fun a b => a < b) →
      (∀ p, p ∈ st.positions ↔ (alookup st.vnode_at p).isSome) →
      (st.vnode_at.map Prod.fst).Nodup →
      st'.positions.Pairwise (fun a b => a < b) ∧
      (∀ p, p ∈ st'.positions ↔ (alookup st'.vnode_at p).isSome) ∧
      (st'.vnode_at.map Prod.fst).Nodup := by
  intro n
  induction n with
  | zero =>
    intro st i st' h hs hio hn
    obtain rfl : st = st' := Option.some.inj h
    exact ⟨hs, hio, hn⟩
  | succ n ih =>
    intro st i st' h hs hio hn
    simp only [placeFrom] at h
    cases h1 : placeOne hash fuel node st i with
    | none =>
      rw [h1] at h
      cases h
    | some st₁ =>
      rw [h1] at h
      obtain ⟨hs1, hio1, hn1⟩ := placeOne_core hash fuel node st i st₁ h1 hs hio hn
      exact ih st₁ (i + 1) st' h hs1 hio1 hn1

theorem placeFrom_spec (hash : String → Nat) (fuel : Nat) (node : Node) :
    ∀ n st i st', placeFrom hash fuel node st i n = some st' →
      ∃ newps : List Nat,
        st'.pos_list = st.pos_list ++ newps ∧
        newps.length = n ∧
        st'.positions.length = st.positions.length + n ∧
        st'.vnode_at.length = st.vnode_at.length + n ∧
        (∀ p vn, alookup st.vnode_at p = some vn →
          alookup st'.vnode_at p = some vn) ∧
        (∀ k, ∀ hk : k < newps.length,
          alookup st'.vnode_at (newps.get ⟨k, hk⟩) = some ⟨node, i + k⟩) ∧
        (∀ p ∈ newps, alookup st.vnode_at p = none) ∧
        (∀ p vn, alookup st'.vnode_at p = some vn →
          alookup st.vnode_at p = some vn ∨ (p ∈ newps ∧ vn.physical = node)) ∧
        (∀ k, ∀ hk : k < newps.length, ∃ a,
          newps.get ⟨k, hk⟩ =
            hash (candidateKey (VNode.vnode_key ⟨node, i + k⟩) a) ∧
          ∀ b < a, (alookup st'.vnode_at
            (hash (candidateKey (VNode.vnode_key ⟨node, i + k⟩) b))).isSome) := by
  intro n
  induction n with
  | zero =>
    intro st i st' h
    obtain rfl : st = st' := Option.some.inj h
    refine ⟨[], by simp, rfl, rfl, rfl, fun p vn hp => hp, ?_, ?_, ?_, ?_⟩
    · intro k hk
      simp at hk
    · intro p hp
      simp at hp
    · intro p vn hp
      exact Or.inl hp
    · intro k hk
      simp at hk
  | succ n ih =>
    intro st i st' h
    simp only [placeFrom] at h
    cases h1 : placeOne hash fuel node st i with
    | none =>
      rw [h1] at h
      cases h
    | some st₁ =>
      rw [h1] at h
      obtain ⟨pos, hp, hst₁⟩ := placeOne_eq hash fuel node st i st₁ h1
      obtain ⟨hfree, a0, -, ha0, ha0occ⟩ :=
        probe_spec hash st.vnode_at _ fuel 0 pos hp
      obtain ⟨newps₁, hpl, hlen, hposlen, hvalen, hmono, hget, hfresh, hback,
        hprobe⟩ := ih st₁ (i + 1) st' h
      have hva₁ : st₁.vnode_at = insertA st.vnode_at pos ⟨node, i⟩ := by
        rw [hst₁]
      have hpl₁ : st₁.pos_list = st.pos_list ++ [pos] := by
        rw [hst₁]
      have hpos₁ : st₁.positions.length = st.positions.length + 1 := by
        rw [hst₁]
        exact length_insertAt _ _ _
      have hvalen₁ : st₁.vnode_at.length = st.vnode_at.length + 1 := by
        rw [hva₁]
        exact length_insertA_of_none _ _ _ hfree
      -- one step of monotonicity: the bindings of `st.vnode_at` survive the
      -- insertion of the fresh position `pos`
      have hmono₁ : ∀ p vn, alookup st.vnode_at p = some vn →
          alookup st₁.vnode_at p = some vn := by
        intro p vn hpv
        have hpp : p ≠ pos := by
          intro hpp
          rw [hpp, hfree] at hpv
          cases hpv
        rw [hva₁, alookup_insertA_ne _ _ _ _ hpp]
        exact hpv
      refine ⟨pos :: newps₁, ?_, by simp [hlen], by omega, by omega, ?_, ?_, ?_,
        ?_, ?_⟩
      · rw [hpl, hpl₁]
        simp
      · intro p vn hpv
        exact hmono p vn (hmono₁ p vn hpv)
      · intro k hk
        cases k with
        | zero =>
          simp only [List.get_cons_zero, Nat.add_zero]
          refine hmono pos ⟨node, i⟩ ?_
          rw [hva₁]
          exact alookup_insertA_self _ _ _
        | succ k =>
          have hk' : k < newps₁.length := by
            simpa using hk
          have heq : i + (k + 1) = i + 1 + k := by omega
          rw [heq]
          simpa using hget k hk'
      · intro p hpmem
        rcases List.mem_cons.mp hpmem with rfl | hpmem
        · exact hfree
        · have h₁ := hfresh p hpmem
          by_cases hpp : p = pos
          · subst hpp
            exact hfree
          · rw [hva₁, alookup_insertA_ne _ _ _ _ hpp] at h₁
            exact h₁
      · intro p vn hpv
        rcases hback p vn hpv with h₁ | ⟨hmem, hphys⟩
        · by_cases hpp : p = pos
          · subst hpp
            rw [hva₁, alookup_insertA_self] at h₁
            obtain rfl : VNode.mk node i = vn := Option.some.inj h₁
            exact Or.inr ⟨List.mem_cons_self _ _, rfl⟩
          · rw [hva₁, alookup_insertA_ne _ _ _ _ hpp] at h₁
            exact Or.inl h₁
        · exact Or.inr ⟨List.mem_cons_of_mem _ hmem, hphys⟩
      · intro k hk
        cases k with
        | zero =>
          refine ⟨a0, by simpa using ha0, ?_⟩
          intro b hb
          have := ha0occ b (by omega) hb
          rw [Option.isSome_iff_exists] at this
          obtain ⟨vn, hvn⟩ := this
          rw [Option.isSome_iff_exists]
          exact ⟨vn, hmono _ _ (hmono₁ _ _ hvn)⟩
        | succ k =>
          have hk' : k < newps₁.length := by
            simpa using hk
          obtain ⟨a, ha, haocc⟩ := hprobe k hk'
          have heq : i + (k + 1) = i + 1 + k := by omega
          rw [heq]
          refine ⟨a, ?_, ?_⟩
          · simpa using ha
          · intro b hb
            exact haocc b hb

/-! ## `add_node`: extraction and invariant preservation -/

theorem add_node_ok (fuel : Nat) (r : HashRing) (node : Node) (r' : HashRing)
    (h : add_node fuel r node = some (.ok r')) :
    alookup r.positions_by_node node.node_id = none ∧
    ∃ st, placeFrom r.hash_fn fuel node ⟨r.positions, r.vnode_at, []⟩ 0
        r.vnodes_per_node = some st ∧
      r' = { r with
        positions := st.positions,
        vnode_at := st.vnode_at,
        positions_by_node :=
          insertA r.positions_by_node node.node_id st.pos_list } := by
  unfold add_node at h
  by_cases hdup : (alookup r.positions_by_node node.node_id).isSome
  · rw [if_pos hdup] at h
    cases Option.some.inj h
  · rw [if_neg hdup] at h
    refine ⟨Option.not_isSome_iff_eq_none.mp hdup, ?_⟩
    cases hp : placeFrom r.hash_fn fuel node ⟨r.positions, r.vnode_at, []⟩ 0
        r.vnodes_per_node with
    | none =>
      rw [hp] at h
      cases h
    | some st =>
      rw [hp] at h
      exact ⟨st, rfl, (Except.ok.inj (Option.some.inj h)).symm⟩

theorem node_eta (node : Node) : Node.mk node.node_id = node := by
  cases node
  rfl

theorem add_node_preserves_inv (fuel : Nat) (r : HashRing) (node : Node)
    (r' : HashRing) (h : add_node fuel r node = some (.ok r'))
    (hinv : RingInv r) : RingInv r' := by
  obtain ⟨habs, st, hpf, rfl⟩ := add_node_ok fuel r node r' h
  obtain ⟨hs', hio', hn'⟩ := placeFrom_core r.hash_fn fuel node
    r.vnodes_per_node ⟨r.positions, r.vnode_at, []⟩ 0 st hpf
    hinv.sorted_pos hinv.pos_iff hinv.vn_keys_nodup
  obtain ⟨newps, hpl, hlen, -, -, hmono, hget, -, hback, -⟩ :=
    placeFrom_spec r.hash_fn fuel node r.vnodes_per_node
      ⟨r.positions, r.vnode_at, []⟩ 0 st hpf
  rw [List.nil_append] at hpl
  subst hpl
  refine ⟨hs', hio', hn', ?_, ?_, ?_⟩
  · exact nodup_keys_insertA_of_none _ _ _ habs hinv.node_keys_nodup
  · intro p vn hpv
    rcases hback p vn hpv with hold | ⟨hmem, hphys⟩
    · obtain ⟨pl, hplk, hppl⟩ := hinv.vn_owner p vn hold
      have hne : vn.physical.node_id ≠ node.node_id := by
        intro heq
        rw [heq, habs] at hplk
        cases hplk
      rw [alookup_insertA_ne _ _ _ _ hne]
      exact ⟨pl, hplk, hppl⟩
    · refine ⟨st.pos_list, ?_, ?_⟩
      · rw [hphys, alookup_insertA_self]
      · exact hmem
  · intro nid pl hplk
    by_cases hnid : nid = node.node_id
    · subst hnid
      rw [alookup_insertA_self] at hplk
      obtain rfl : st.pos_list = pl := Option.some.inj hplk
      refine ⟨hlen, ?_⟩
      intro i hi
      have := hget i hi
      rw [Nat.zero_add] at this
      rw [node_eta]
      exact this
    · rw [alookup_insertA_ne _ _ _ _ hnid] at hplk
      obtain ⟨hl, hidx⟩ := hinv.owner_spec nid pl hplk
      exact ⟨hl, fun i hi => hmono _ _ (hidx i hi)⟩

/-! ## `remove_node`: extraction and invariant preservation -/

theorem nodup_of_sorted (l : List Nat) (hs : l.Pairwise (fun a b => a < b)) :
    l.Nodup :=
  hs.imp (fun h => Nat.ne_of_lt h)

theorem removeLoop_ok :
    ∀ rest va ps,
      ps.Pairwise (fun a b => a < b) →
      (∀ p, p ∈ ps ↔ (alookup va p).isSome) →
      (va.map Prod.fst).Nodup →
      rest.Nodup →
      (∀ p ∈ rest, (alookup va p).isSome) →
      ∃ va' ps', removeLoop va ps rest = .ok (va', ps') ∧
        ps'.Pairwise (fun a b => a < b) ∧
        (∀ p, p ∈ ps' ↔ (alookup va' p).isSome) ∧
        (va'.map Prod.fst).Nodup ∧
        (∀ p, alookup va' p = if p ∈ rest then none else alookup va p) ∧
        ps'.length + rest.length = ps.length := by
  intro rest
  induction rest with
  | nil =>
    intro va ps hs hio hn _ _
    refine ⟨va, ps, rfl, hs, hio, hn, ?_, by simp⟩
    intro p
    simp
  | cons pos rest ih =>
    intro va ps hs hio hn hrest hall
    have hnodup : ps.Nodup := nodup_of_sorted ps hs
    have hmem : (alookup va pos).isSome := hall pos (List.mem_cons_self _ _)
    have hpos_mem : pos ∈ ps := (hio pos).mpr hmem
    obtain ⟨hlt, hget⟩ := bisect_found ps pos hs hpos_mem
    have hgv : ps.get ⟨bisect_left ps pos, hlt⟩ = pos := by
      rw [List.get_eq_getElem, ← List.getD_eq_getElem ps 0 hlt]
      exact hget
    have hra : removeAt ps (bisect_left ps pos) = ps.erase pos :=
      removeAt_bisect_eq_erase ps pos hs hpos_mem
    have hposrest : pos ∉ rest := (List.nodup_cons.mp hrest).1
    have hrest' : rest.Nodup := (List.nodup_cons.mp hrest).2
    -- the preconditions survive one removal step
    have hs₁ : (ps.erase pos).Pairwise (fun a b => a < b) :=
      List.Pairwise.sublist (List.erase_sublist pos ps) hs
    have hio₁ : ∀ p, p ∈ ps.erase pos ↔ (alookup (eraseA va pos) p).isSome := by
      intro p
      rw [hnodup.mem_erase_iff]
      by_cases hpp : p = pos
      · subst hpp
        rw [alookup_eraseA_self va p hn]
        simp
      · rw [alookup_eraseA_ne va pos p hpp]
        simp only [hpp, ne_eq, not_false_iff, true_and]
        exact hio p
    have hn₁ : ((eraseA va pos).map Prod.fst).Nodup := nodup_keys_eraseA va pos hn
    have hall₁ : ∀ p ∈ rest, (alookup (eraseA va pos) p).isSome := by
      intro p hp
      have hpp : p ≠ pos := fun h => hposrest (h ▸ hp)
      rw [alookup_eraseA_ne va pos p hpp]
      exact hall p (List.mem_cons_of_mem _ hp)
    obtain ⟨va', ps', heq, hs', hio', hn', hlook, hlen⟩ :=
      ih (eraseA va pos) (ps.erase pos) hs₁ hio₁ hn₁ hrest' hall₁
    refine ⟨va', ps', ?_, hs', hio', hn', ?_, ?_⟩
    · show removeLoop va ps (pos :: rest) = .ok (va', ps')
      simp only [removeLoop]
      rw [dif_pos hlt, if_pos hgv, hra]
      exact heq
    · intro p
      rw [hlook p]
      by_cases hpr : p ∈ rest
      · rw [if_pos hpr, if_pos (List.mem_cons_of_mem _ hpr)]
      · rw [if_neg hpr]
        by_cases hpp : p = pos
        · subst hpp
          rw [if_pos (List.mem_cons_self _ _)]
          exact alookup_eraseA_self va p hn
        · have hnc : p ∉ pos :: rest := by
            simp [hpp, hpr]
          rw [if_neg hnc]
          exact alookup_eraseA_ne va pos p hpp
    · have h1 : (ps.erase pos).length = ps.length - 1 :=
        List.length_erase_of_mem hpos_mem
      have h2 : 0 < ps.length := List.length_pos.mpr (List.ne_nil_of_mem hpos_mem)
      simp only [List.length_cons]
      omega

theorem inv_pl_props (r : HashRing) (hinv : RingInv r) (nid : String)
    (pl : List Nat) (hplk : alookup r.positions_by_node nid = some pl) :
    pl.Nodup ∧ ∀ p ∈ pl, (alookup r.vnode_at p).isSome := by
  obtain ⟨-, hidx⟩ := hinv.owner_spec nid pl hplk
  constructor
  · rw [List.nodup_iff_injective_get]
    intro i j hij
    have hi := hidx i.1 i.2
    have hj := hidx j.1 j.2
    rw [Fin.eta] at hi hj
    rw [hij, hj] at hi
    have : (⟨⟨nid⟩, j.1⟩ : VNode) = ⟨⟨nid⟩, i.1⟩ := Option.some.inj hi
    have hij' : j.1 = i.1 := congrArg VNode.replica_index this
    exact Fin.ext hij'.symm
  · intro p hp
    obtain ⟨i, hi⟩ := List.mem_iff_get.mp hp
    rw [← hi, hidx i.1 i.2]
    simp

theorem remove_node_ok_elim (r : HashRing) (nid : String) (r' : HashRing)
    (h : remove_node r nid = .ok r') :
    ∃ pl va ps, alookup r.positions_by_node nid = some pl ∧
      removeLoop r.vnode_at r.positions pl = .ok (va, ps) ∧
      r' = { r with
        vnode_at := va,
        positions := ps,
        positions_by_node := eraseA r.positions_by_node nid } := by
  unfold remove_node at h
  split at h
  · cases h
  · next pl hplk =>
    split at h
    · cases h
    · next va ps heq =>
      exact ⟨pl, va, ps, hplk, heq, (Except.ok.inj h).symm⟩

theorem remove_node_succeeds (r : HashRing) (hinv : RingInv r) (nid : String)
    (pl : List Nat) (hplk : alookup r.positions_by_node nid = some pl) :
    ∃ va' ps', remove_node r nid = .ok { r with
        vnode_at := va',
        positions := ps',
        positions_by_node := eraseA r.positions_by_node nid } ∧
      (∀ p, alookup va' p = if p ∈ pl then none else alookup r.vnode_at p) ∧
      ps'.length + pl.length = r.positions.length := by
  obtain ⟨hnd, hall⟩ := inv_pl_props r hinv nid pl hplk
  obtain ⟨va', ps', heq, -, -, -, hlook, hlen⟩ :=
    removeLoop_ok pl r.vnode_at r.positions hinv.sorted_pos hinv.pos_iff
      hinv.vn_keys_nodup hnd hall
  refine ⟨va', ps', ?_, hlook, hlen⟩
  simp only [remove_node, hplk, heq]

theorem remove_node_preserves_inv (r : HashRing) (nid : String) (r' : HashRing)
    (h : remove_node r nid = .ok r') (hinv : RingInv r) : RingInv r' := by
  obtain ⟨pl, va, ps, hplk, heq, rfl⟩ := remove_node_ok_elim r nid r' h
  obtain ⟨hnd, hall⟩ := inv_pl_props r hinv nid pl hplk
  obtain ⟨va₂, ps₂, heq₂, hs', hio', hn', hlook, hlen⟩ :=
    removeLoop_ok pl r.vnode_at r.positions hinv.sorted_pos hinv.pos_iff
      hinv.vn_keys_nodup hnd hall
  rw [heq₂] at heq
  obtain ⟨h1, h2⟩ := Prod.mk.injEq .. ▸ Except.ok.inj heq
  subst h1
  subst h2
  refine ⟨hs', hio', hn', ?_, ?_, ?_⟩
  · exact nodup_keys_eraseA _ _ hinv.node_keys_nodup
  · intro p vn hpv
    rw [hlook p] at hpv
    by_cases hppl : p ∈ pl
    · rw [if_pos hppl] at hpv
      cases hpv
    · rw [if_neg hppl] at hpv
      obtain ⟨pl₂, hplk₂, hppl₂⟩ := hinv.vn_owner p vn hpv
      have hne : vn.physical.node_id ≠ nid := by
        intro heqn
        rw [heqn, hplk] at hplk₂
        obtain rfl : pl = pl₂ := Option.some.inj hplk₂
        exact hppl hppl₂
      rw [alookup_eraseA_ne _ _ _ hne]
      exact ⟨pl₂, hplk₂, hppl₂⟩
  · intro nid₂ pl₂ hplk₂
    by_cases hne : nid₂ = nid
    · subst hne
      rw [alookup_eraseA_self _ _ hinv.node_keys_nodup] at hplk₂
      cases hplk₂
    · rw [alookup_eraseA_ne _ _ _ hne] at hplk₂
      obtain ⟨hl, hidx⟩ := hinv.owner_spec nid₂ pl₂ hplk₂
      refine ⟨hl, ?_⟩
      intro i hi
      have hv := hidx i hi
      have hnotpl : pl₂.get ⟨i, hi⟩ ∉ pl := by
        intro hmem
        obtain ⟨hlpl, hidxpl⟩ := hinv.owner_spec nid pl hplk
        obtain ⟨j, hj⟩ := List.mem_iff_get.mp hmem
        have hvj := hidxpl j.1 j.2
        rw [Fin.eta, hj] at hvj
        rw [hv] at hvj
        have h5 : nid₂ = nid := by
          have h6 := congrArg (fun v => v.physical.node_id)
            (Option.some.inj hvj)
          simpa using h6
        exact hne h5
      rw [hlook, if_neg hnotpl]
      exact hv

/-! ## Reachability implies the invariant -/

theorem mkHashRing_ok (K : Int) (hash : String → Nat) (r : HashRing)
    (h : mkHashRing K hash = .ok r) :
    r.vnodes_per_node = K.toNat ∧ r.hash_fn = hash ∧ r.positions = [] ∧
    r.vnode_at = [] ∧ r.positions_by_node = [] ∧ 0 < K := by
  unfold mkHashRing at h
  by_cases hk : K ≤ 0
  · rw [if_pos hk] at h
    cases h
  · rw [if_neg hk] at h
    obtain rfl := (Except.ok.inj h).symm
    exact ⟨rfl, rfl, rfl, rfl, rfl, by omega⟩

theorem reachable_inv (r : HashRing) (h : Reachable r) : RingInv r := by
  induction h with
  | init K hash r h0 =>
    obtain ⟨-, -, hps, hva, hpbn, -⟩ := mkHashRing_ok K hash r h0
    refine ⟨?_, ?_, ?_, ?_, ?_, ?_⟩
    · rw [hps]
      exact List.Pairwise.nil
    · intro p
      rw [hps, hva]
      simp [alookup]
    · rw [hva]
      simp
    · rw [hpbn]
      simp
    · intro p vn hpv
      rw [hva] at hpv
      cases hpv
    · intro nid pl hplk
      rw [hpbn] at hplk
      cases hplk
  | add r node fuel r' _ hstep ih =>
    exact add_node_preserves_inv fuel r node r' hstep ih
  | remove r nid r' _ hstep ih =>
    exact remove_node_preserves_inv r nid r' hstep ih

/-! ## Successor lookup -/

theorem getD_mem (l : List Nat) (i : Nat) (h : i < l.length) : l.getD i 0 ∈ l := by
  rw [List.getD_eq_getElem l 0 h]
  exact List.getElem_mem h

theorem sorted_head_min (l : List Nat) (hs : l.Pairwise (fun a b => a < b))
    (q : Nat) (hq : q ∈ l) : l.getD 0 0 ≤ q := by
  cases l with
  | nil => simp at hq
  | cons a t =>
    rcases List.mem_cons.mp hq with rfl | hqt
    · simp
    · have := (List.pairwise_cons.mp hs).1 q hqt
      simp only [List.getD_cons_zero]
      omega

theorem get_node_spec (r : HashRing)
    (hs : r.positions.Pairwise (fun a b => a < b))
    (hne : r.positions ≠ [])
    (hcov : ∀ p ∈ r.positions, (alookup r.vnode_at p).isSome) (key : String) :
    ∃ p vn, p ∈ r.positions ∧ alookup r.vnode_at p = some vn ∧
      get_node_for_key r key = .ok vn.physical ∧
      ((∃ q ∈ r.positions, r.hash_fn key ≤ q) →
        r.hash_fn key ≤ p ∧ ∀ q ∈ r.positions, r.hash_fn key ≤ q → p ≤ q) ∧
      ((∀ q ∈ r.positions, q < r.hash_fn key) → ∀ q ∈ r.positions, p ≤ q) := by
  have hlen : 0 < r.positions.length := List.length_pos.mpr hne
  have hempty : r.positions.isEmpty = false := by
    cases hl : r.positions with
    | nil => exact absurd hl hne
    | cons a t => rfl
  set h := r.hash_fn key with hh
  set i0 := bisect_left r.positions h with hi0
  have hble : i0 ≤ r.positions.length := bisect_le_length _ _
  set idx := if i0 = r.positions.length then 0 else i0 with hidx
  have hidxlt : idx < r.positions.length := by
    rw [hidx]
    by_cases hc : i0 = r.positions.length
    · rw [if_pos hc]
      exact hlen
    · rw [if_neg hc]
      omega
  set p := r.positions.getD idx 0 with hp
  have hpmem : p ∈ r.positions := getD_mem _ _ hidxlt
  obtain ⟨vn, hvn⟩ := Option.isSome_iff_exists.mp (hcov p hpmem)
  have heq : get_node_for_key r key = .ok vn.physical := by
    simp only [get_node_for_key]
    rw [if_neg (by rw [hempty]; exact Bool.false_ne_true)]
    rw [← hh, ← hi0, ← hidx, ← hp, hvn]
  refine ⟨p, vn, hpmem, hvn, heq, ?_, ?_⟩
  · rintro ⟨q, hq, hle⟩
    have hi0lt : i0 < r.positions.length := by
      by_cases hc : i0 = r.positions.length
      · exfalso
        have := bisect_eq_length_all_lt r.positions h hc q hq
        omega
      · omega
    have hpidx : idx = i0 := by
      rw [hidx, if_neg (by omega)]
    have hge : h ≤ p := by
      rw [hp, hpidx]
      exact bisect_ge r.positions h hi0lt
    refine ⟨hge, ?_⟩
    intro q' hq' hle'
    obtain ⟨j, hj⟩ := List.mem_iff_get.mp hq'
    have hjge : i0 ≤ j.1 := by
      by_contra hjlt
      have := bisect_lt r.positions h j.1 (by omega)
      rw [List.getD_eq_getElem r.positions 0 j.2, ← List.get_eq_getElem,
        hj] at this
      omega
    by_cases hji : i0 = j.1
    · rw [hp, hpidx]
      rw [← hj, List.get_eq_getElem, ← List.getD_eq_getElem r.positions 0 j.2,
        ← hji]
    · have := getD_sorted_mono r.positions hs i0 j.1 (by omega) j.2
      rw [hp, hpidx]
      rw [← hj, List.get_eq_getElem, ← List.getD_eq_getElem r.positions 0 j.2]
      omega
  · intro hall
    have hi0len : i0 = r.positions.length := by
      by_contra hc
      have hi0lt : i0 < r.positions.length := by omega
      have h1 := bisect_ge r.positions h hi0lt
      rw [← hi0] at h1
      have h2 := hall _ (getD_mem _ _ hi0lt)
      omega
    have hpidx : idx = 0 := by
      rw [hidx, if_pos hi0len]
    intro q hq
    rw [hp, hpidx]
    exact sorted_head_min r.positions hs q hq

/-! ## `list_nodes` -/

theorem mem_insertSorted (x y : String) (l : List String) :
    y ∈ insertSorted x l ↔ y = x ∨ y ∈ l := by
  induction l with
  | nil => simp [insertSorted]
  | cons a t ih =>
    by_cases hxa : x ≤ a
    · simp [insertSorted, hxa]
    · simp only [insertSorted, if_neg hxa, List.mem_cons, ih]
      tauto

theorem mem_sortStrings (y : String) (l : List String) :
    y ∈ sortStrings l ↔ y ∈ l := by
  induction l with
  | nil => simp [sortStrings]
  | cons a t ih =>
    simp only [sortStrings, mem_insertSorted, List.mem_cons, ih]

theorem mem_list_nodes (r : HashRing) (nid : String) :
    nid ∈ list_nodes r ↔ (alookup r.positions_by_node nid).isSome := by
  rw [list_nodes, mem_sortStrings, alookup_isSome_iff_mem]

/-! ## Rebalancer (rebalancer.py) -/

/-- The key-set comparison `before.keys() != after.keys()` of
`Rebalancer.moved_key_stats` (dict key views compare as sets). -/
def sameKeys (before after : List (String × String)) : Bool :=
  (before.map Prod.fst).all (fun k => decide (k ∈ after.map Prod.fst)) &&
  (after.map Prod.fst).all (fun k => decide (k ∈ before.map Prod.fst))

/-- `Rebalancer.moved_key_stats`: `KeySetMismatch` when the key sets differ,
otherwise `(moved, total, pct)` where `moved` counts the keys of `before`
whose value differs in `after` and `pct` is `moved / total * 100.0`
(`0.0` when `total` is zero). -/
def moved_key_stats (before after : List (String × String)) :
    Except RingError (Nat × Nat × ℚ) :=
  if sameKeys before after then
    let total := before.length
    let moved := List.countP
      (fun k => decide (alookup before k ≠ alookup after k))
      (before.map Prod.fst)
    let pct : ℚ := if total = 0 then 0 else (moved : ℚ) / (total : ℚ) * 100
    .ok (moved, total, pct)
  else .error .KeySetMismatch

/-- One step of `collections.Counter`: increment the tally of `k`. -/
def incA : List (String × Nat) → String → List (String × Nat)
  | [], k => [(k, 1)]
  | (k', n) :: t, k =>
    if k' = k then (k', n + 1) :: t else (k', n) :: incA t k

/-- `collections.Counter(vals)`: per-value occurrence tallies, in order of
first appearance. -/
def counterOf (vals : List String) : List (String × Nat) :=
  vals.foldl incA []

/-- `min(values)` for the nonempty case (`0` on the empty list, which the
source never hits). -/
def listMin : List Nat → Nat
  | [] => 0
  | v :: vs => vs.foldl Nat.min v

/-- `max(values)` for the nonempty case. -/
def listMax : List Nat → Nat
  | [] => 0
  | v :: vs => vs.foldl Nat.max v

/-- The per-node key counts `list(Counter(mapping.values()).values())`. -/
def pcounts (m : List (String × String)) : List Nat :=
  (counterOf (m.map Prod.snd)).map Prod.snd

/-- The statistics dict returned by `Rebalancer.distribution_stats`
(all float values modelled as exact rationals; `stdev` is the square root
of `variance` and is treated separately). -/
structure DistStats where
  nodes : ℚ
  keys : ℚ
  mean : ℚ
  variance : ℚ
  min : ℚ
  max : ℚ
deriving DecidableEq

/-- `Rebalancer.distribution_stats`: all-zero statistics on an empty tally,
otherwise count, total, arithmetic mean, population variance and extrema
of the per-node counts. -/
def distribution_stats (m : List (String × String)) : DistStats :=
  let values := pcounts m
  if values = [] then ⟨0, 0, 0, 0, 0, 0⟩
  else
    let n : ℚ := (values.length : ℚ)
    let s : ℚ := (values.map (fun v : Nat => (v : ℚ))).sum
    let mean : ℚ := s / n
    let variance : ℚ := ((values.map (fun v : Nat => ((v : ℚ) - mean) ^ 2)).sum) / n
    ⟨n, s, mean, variance, (listMin values : ℚ), (listMax values : ℚ)⟩

/-- `Rebalancer.expected_move_fraction_add`: `1 / total_nodes_after`, or `0`
when the argument is not positive. -/
def expected_move_fraction_add (total_nodes_after : Int) : ℚ :=
  if total_nodes_after ≤ 0 then 0 else 1 / (total_nodes_after : ℚ)

/-! ## Counter lemmas -/

theorem alookup_incA_self (l : List (String × Nat)) (k : String) :
    alookup (incA l k) k = some ((alookup l k).getD 0 + 1) := by
  induction l with
  | nil => simp [incA, alookup]
  | cons p t ih =>
    obtain ⟨k', n⟩ := p
    by_cases h : k' = k
    · subst h
      simp [incA, alookup]
    · simp [incA, alookup, h, ih]

theorem alookup_incA_ne (l : List (String × Nat)) (k k' : String)
    (h : k' ≠ k) : alookup (incA l k) k' = alookup l k' := by
  induction l with
  | nil => simp [incA, alookup, Ne.symm h]
  | cons p t ih =>
    obtain ⟨k₀, n⟩ := p
    by_cases h0 : k₀ = k
    · subst h0
      simp [incA, alookup, Ne.symm h]
    · simp [incA, alookup, h0, ih]

theorem sum_incA (l : List (String × Nat)) (k : String) :
    ((incA l k).map Prod.snd).sum = (l.map Prod.snd).sum + 1 := by
  induction l with
  | nil => simp [incA]
  | cons p t ih =>
    obtain ⟨k', n⟩ := p
    by_cases h : k' = k
    · subst h
      simp [incA]
      omega
    · simp [incA, h, ih]
      omega

theorem keys_incA_of_isSome (l : List (String × Nat)) (k : String)
    (h : (alookup l k).isSome) : (incA l k).map Prod.fst = l.map Prod.fst := by
  induction l with
  | nil => simp [alookup] at h
  | cons p t ih =>
    obtain ⟨k', n⟩ := p
    by_cases h0 : k' = k
    · subst h0
      simp [incA]
    · simp only [alookup, if_neg h0] at h
      simp [incA, h0, ih h]

theorem keys_incA_of_none (l : List (String × Nat)) (k : String)
    (h : alookup l k = none) :
    (incA l k).map Prod.fst = l.map Prod.fst ++ [k] := by
  induction l with
  | nil => simp [incA]
  | cons p t ih =>
    obtain ⟨k', n⟩ := p
    by_cases h0 : k' = k
    · simp [alookup, h0] at h
    · simp only [alookup, if_neg h0] at h
      simp [incA, h0, ih h]

theorem keys_incA_nodup (l : List (String × Nat)) (k : String)
    (hn : (l.map Prod.fst).Nodup) : ((incA l k).map Prod.fst).Nodup := by
  by_cases h : (alookup l k).isSome
  · rw [keys_incA_of_isSome l k h]
    exact hn
  · have hnone : alookup l k = none := Option.not_isSome_iff_eq_none.mp h
    rw [keys_incA_of_none l k hnone, List.nodup_append]
    refine ⟨hn, List.nodup_singleton k, ?_⟩
    intro x hx hx'
    rw [List.mem_singleton] at hx'
    subst hx'
    exact ((alookup_eq_none_iff_notMem l x).mp hnone) hx

theorem counter_foldl_lookup :
    ∀ (vals : List String) (acc : List (String × Nat)) (k : String),
      alookup (vals.foldl incA acc) k =
        if (alookup acc k).isSome ∨ 0 < vals.count k
        then some ((alookup acc k).getD 0 + vals.count k)
        else none := by
  intro vals
  induction vals with
  | nil =>
    intro acc k
    simp only [List.foldl_nil, List.count_nil, Nat.lt_irrefl, or_false]
    cases h : alookup acc k with
    | none => simp [h]
    | some n => simp [h]
  | cons v vs ih =>
    intro acc k
    rw [List.foldl_cons, ih (incA acc v) k]
    by_cases hvk : v = k
    · subst hvk
      rw [alookup_incA_self acc v]
      have hc : (v :: vs).count v = vs.count v + 1 := by
        simp [List.count_cons]
      rw [hc]
      simp only [Option.isSome_some, true_or]
      rw [if_pos (by cases h : alookup acc v <;> simp)]
      cases h : alookup acc v with
      | none => simp [h]; omega
      | some n => simp [h]; omega
    · rw [alookup_incA_ne acc v k (Ne.symm hvk)]
      have hc : (v :: vs).count k = vs.count k := by
        simp [List.count_cons, hvk]
      rw [hc]

theorem counter_foldl_sum :
    ∀ (vals : List String) (acc : List (String × Nat)),
      ((vals.foldl incA acc).map Prod.snd).sum =
        (acc.map Prod.snd).sum + vals.length := by
  intro vals
  induction vals with
  | nil =>
    intro acc
    simp
  | cons v vs ih =>
    intro acc
    rw [List.foldl_cons, ih (incA acc v), sum_incA]
    simp
    omega

theorem counter_foldl_keys_nodup :
    ∀ (vals : List String) (acc : List (String × Nat)),
      (acc.map Prod.fst).Nodup → ((vals.foldl incA acc).map Prod.fst).Nodup := by
  intro vals
  induction vals with
  | nil =>
    intro acc h
    exact h
  | cons v vs ih =>
    intro acc h
    rw [List.foldl_cons]
    exact ih (incA acc v) (keys_incA_nodup acc v h)

theorem counterOf_lookup (vals : List String) (k : String) :
    alookup (counterOf vals) k =
      if 0 < vals.count k then some (vals.count k) else none := by
  rw [counterOf, counter_foldl_lookup vals [] k]
  simp [alookup]

theorem counterOf_sum (vals : List String) :
    ((counterOf vals).map Prod.snd).sum = vals.length := by
  rw [counterOf, counter_foldl_sum vals []]
  simp

theorem counterOf_keys_nodup (vals : List String) :
    ((counterOf vals).map Prod.fst).Nodup := by
  rw [counterOf]
  exact counter_foldl_keys_nodup vals [] (by simp)

theorem counterOf_keys_mem (vals : List String) (k : String) :
    k ∈ (counterOf vals).map Prod.fst ↔ k ∈ vals := by
  rw [← alookup_isSome_iff_mem, counterOf_lookup]
  by_cases h : 0 < vals.count k
  · simp only [if_pos h, Option.isSome_some, true_iff]
    exact List.count_pos_iff.mp h
  · simp only [if_neg h, Option.isSome_none, Bool.false_eq_true, false_iff]
    intro hmem
    exact h (List.count_pos_iff.mpr hmem)

theorem counterOf_length (vals : List String) :
    (counterOf vals).length = vals.dedup.length := by
  have h1 : (counterOf vals).length = ((counterOf vals).map Prod.fst).length := by
    simp
  have h2 : ((counterOf vals).map Prod.fst).toFinset = vals.toFinset := by
    ext x
    rw [List.mem_toFinset, List.mem_toFinset, counterOf_keys_mem]
  rw [h1, ← List.toFinset_card_of_nodup (counterOf_keys_nodup vals), h2,
    List.card_toFinset]

/-! ## Minima, maxima, variance algebra, key-set comparison -/

theorem foldl_min_le_init : ∀ (vs : List Nat) (a : Nat), vs.foldl Nat.min a ≤ a := by
  intro vs
  induction vs with
  | nil =>
    intro a
    simp
  | cons v t ih =>
    intro a
    rw [List.foldl_cons]
    exact le_trans (ih (Nat.min a v)) (Nat.min_le_left a v)

theorem foldl_min_le_mem :
    ∀ (vs : List Nat) (a x : Nat), x ∈ vs → vs.foldl Nat.min a ≤ x := by
  intro vs
  induction vs with
  | nil =>
    intro a x hx
    simp at hx
  | cons v t ih =>
    intro a x hx
    rw [List.foldl_cons]
    rcases List.mem_cons.mp hx with rfl | hxt
    · exact le_trans (foldl_min_le_init t (Nat.min a x)) (Nat.min_le_right a x)
    · exact ih (Nat.min a v) x hxt

theorem foldl_min_mem :
    ∀ (vs : List Nat) (a : Nat), vs.foldl Nat.min a = a ∨ vs.foldl Nat.min a ∈ vs := by
  intro vs
  induction vs with
  | nil =>
    intro a
    exact Or.inl rfl
  | cons v t ih =>
    intro a
    rw [List.foldl_cons]
    rcases ih (Nat.min a v) with heq | hmem
    · rw [heq]
      have hcase : Nat.min a v = a ∨ Nat.min a v = v := by
        by_cases hle : a ≤ v
        · exact Or.inl (Nat.min_eq_left hle)
        · exact Or.inr (Nat.min_eq_right (by omega))
      rcases hcase with hc | hc
      · rw [hc]
        exact Or.inl rfl
      · rw [hc]
        exact Or.inr (List.mem_cons_self _ _)
    · exact Or.inr (List.mem_cons_of_mem _ hmem)

theorem listMin_le (l : List Nat) (x : Nat) (hx : x ∈ l) : listMin l ≤ x := by
  cases l with
  | nil => simp at hx
  | cons v t =>
    rcases List.mem_cons.mp hx with rfl | hxt
    · exact foldl_min_le_init t x
    · exact foldl_min_le_mem t v x hxt

theorem listMin_mem (l : List Nat) (h : l ≠ []) : listMin l ∈ l := by
  cases l with
  | nil => exact absurd rfl h
  | cons v t =>
    rcases foldl_min_mem t v with heq | hmem
    · rw [listMin, heq]
      exact List.mem_cons_self _ _
    · exact List.mem_cons_of_mem _ hmem

theorem foldl_max_init_le : ∀ (vs : List Nat) (a : Nat), a ≤ vs.foldl Nat.max a := by
  intro vs
  induction vs with
  | nil =>
    intro a
    simp
  | cons v t ih =>
    intro a
    rw [List.foldl_cons]
    exact le_trans (Nat.le_max_left a v) (ih (Nat.max a v))

theorem foldl_max_mem_le :
    ∀ (vs : List Nat) (a x : Nat), x ∈ vs → x ≤ vs.foldl Nat.max a := by
  intro vs
  induction vs with
  | nil =>
    intro a x hx
    simp at hx
  | cons v t ih =>
    intro a x hx
    rw [List.foldl_cons]
    rcases List.mem_cons.mp hx with rfl | hxt
    · exact le_trans (Nat.le_max_right a x) (foldl_max_init_le t (Nat.max a x))
    · exact ih (Nat.max a v) x hxt

theorem foldl_max_mem :
    ∀ (vs : List Nat) (a : Nat), vs.foldl Nat.max a = a ∨ vs.foldl Nat.max a ∈ vs := by
  intro vs
  induction vs with
  | nil =>
    intro a
    exact Or.inl rfl
  | cons v t ih =>
    intro a
    rw [List.foldl_cons]
    rcases ih (Nat.max a v) with heq | hmem
    · rw [heq]
      have hcase : Nat.max a v = a ∨ Nat.max a v = v := by
        by_cases hle : a ≤ v
        · exact Or.inr (Nat.max_eq_right hle)
        · exact Or.inl (Nat.max_eq_left (by omega))
      rcases hcase with hc | hc
      · rw [hc]
        exact Or.inl rfl
      · rw [hc]
        exact Or.inr (List.mem_cons_self _ _)
    · exact Or.inr (List.mem_cons_of_mem _ hmem)

theorem listMax_ge (l : List Nat) (x : Nat) (hx : x ∈ l) : x ≤ listMax l := by
  cases l with
  | nil => simp at hx
  | cons v t =>
    rcases List.mem_cons.mp hx with rfl | hxt
    · exact foldl_max_init_le t x
    · exact foldl_max_mem_le t v x hxt

theorem listMax_mem (l : List Nat) (h : l ≠ []) : listMax l ∈ l := by
  cases l with
  | nil => exact absurd rfl h
  | cons v t =>
    rcases foldl_max_mem t v with heq | hmem
    · rw [listMax, heq]
      exact List.mem_cons_self _ _
    · exact List.mem_cons_of_mem _ hmem

theorem sum_sq_dev (xs : List ℚ) (μ : ℚ) :
    (xs.map (fun x => (x - μ) ^ 2)).sum =
      (xs.map (fun x => x ^ 2)).sum - 2 * μ * xs.sum + (xs.length : ℚ) * μ ^ 2 := by
  induction xs with
  | nil => simp
  | cons x t ih =>
    simp only [List.map_cons, List.sum_cons, List.length_cons, ih]
    push_cast
    ring

theorem sum_sq_dev_nonneg (xs : List ℚ) (μ : ℚ) :
    0 ≤ (xs.map (fun x => (x - μ) ^ 2)).sum := by
  apply List.sum_nonneg
  intro y hy
  obtain ⟨x, -, rfl⟩ := List.mem_map.mp hy
  exact sq_nonneg _

theorem sameKeys_iff (before after : List (String × String)) :
    sameKeys before after = true ↔
      (before.map Prod.fst).toFinset = (after.map Prod.fst).toFinset := by
  rw [sameKeys, Bool.and_eq_true, List.all_eq_true, List.all_eq_true]
  constructor
  · rintro ⟨h1, h2⟩
    ext x
    simp only [List.mem_toFinset]
    constructor
    · intro hx
      exact of_decide_eq_true (h1 x hx)
    · intro hx
      exact of_decide_eq_true (h2 x hx)
  · intro h
    constructor
    · intro x hx
      apply decide_eq_true
      have := (Finset.ext_iff.mp h x).mp (List.mem_toFinset.mpr hx)
      exact List.mem_toFinset.mp this
    · intro x hx
      apply decide_eq_true
      have := (Finset.ext_iff.mp h x).mpr (List.mem_toFinset.mpr hx)
      exact List.mem_toFinset.mp this

/-! ## Concrete rings for the closed instances (hash = string length) -/

/-- An empty ring with one virtual node per physical node. -/
def ringK1Empty : HashRing := ⟨1, String.length, [], [], []⟩

/-- `ringK1Empty` after adding node `"A"` (`"A#vn0"` hashes to 5). -/
def ringA : HashRing := ⟨1, String.length, [5], [(5, ⟨⟨"A"⟩, 0⟩)], [("A", [5])]⟩

/-- `ringA` after adding node `"BB"` (`"BB#vn0"` hashes to 6). -/
def ringAB : HashRing := ⟨1, String.length, [5, 6],
  [(5, ⟨⟨"A"⟩, 0⟩), (6, ⟨⟨"BB"⟩, 0⟩)], [("A", [5]), ("BB", [6])]⟩

/-- `ringAB` after removing node `"A"`. -/
def ringB : HashRing := ⟨1, String.length, [6], [(6, ⟨⟨"BB"⟩, 0⟩)], [("BB", [6])]⟩

theorem ringA_reachable : Reachable ringA :=
  Reachable.add ringK1Empty ⟨"A"⟩ 3 ringA
    (Reachable.init 1 String.length ringK1Empty rfl) rfl

theorem ringAB_reachable : Reachable ringAB :=
  Reachable.add ringA ⟨"BB"⟩ 3 ringAB ringA_reachable rfl

/-- Lookup on an empty position list reports `EmptyRing`. -/
theorem get_node_empty (r : HashRing) (h : r.positions = []) (key : String) :
    get_node_for_key r key = .error .EmptyRing := by
  simp only [get_node_for_key]
  rw [if_pos (by rw [h]; rfl)]

/-! ## Claim C1 -/

/-- C1: on a ring whose positions are sorted, nonempty and all carry a
virtual node, `get_node_for_key` hashes the key and returns the physical
owner of the virtual node at the smallest occupied position `≥ h`,
wrapping to the smallest occupied position when every position is `< h`;
an exact hit on an occupied position selects that position. -/
theorem c1_lookup_successor (r : HashRing) (key : String)
    (hs : r.positions.Pairwise (fun a b => a < b))
    (hne : r.positions ≠ [])
    (hcov : ∀ p ∈ r.positions, (alookup r.vnode_at p).isSome) :
    ∃ p vn, p ∈ r.positions ∧ alookup r.vnode_at p = some vn ∧
      get_node_for_key r key = .ok vn.physical ∧
      ((∃ q ∈ r.positions, r.hash_fn key ≤ q) →
        r.hash_fn key ≤ p ∧ ∀ q ∈ r.positions, r.hash_fn key ≤ q → p ≤ q) ∧
      ((∀ q ∈ r.positions, q < r.hash_fn key) → ∀ q ∈ r.positions, p ≤ q) ∧
      (r.hash_fn key ∈ r.positions → p = r.hash_fn key) := by
  obtain ⟨p, vn, hp, hvn, heq, hsucc, hwrap⟩ := get_node_spec r hs hne hcov key
  refine ⟨p, vn, hp, hvn, heq, hsucc, hwrap, ?_⟩
  intro hh
  obtain ⟨h1, h2⟩ := hsucc ⟨r.hash_fn key, hh, le_refl _⟩
  exact le_antisymm (h2 _ hh (le_refl _)) h1

/-- C1 at a concrete input: in `ringAB` the key `"eight88"` hashes to 7,
past both occupied positions, so lookup wraps to position 5 (node `"A"`). -/
theorem c1_witness :
    ∃ p vn, p ∈ ringAB.positions ∧ alookup ringAB.vnode_at p = some vn ∧
      get_node_for_key ringAB "eight88" = .ok vn.physical ∧
      ((∃ q ∈ ringAB.positions, ringAB.hash_fn "eight88" ≤ q) →
        ringAB.hash_fn "eight88" ≤ p ∧
          ∀ q ∈ ringAB.positions, ringAB.hash_fn "eight88" ≤ q → p ≤ q) ∧
      ((∀ q ∈ ringAB.positions, q < ringAB.hash_fn "eight88") →
        ∀ q ∈ ringAB.positions, p ≤ q) ∧
      (ringAB.hash_fn "eight88" ∈ ringAB.positions →
        p = ringAB.hash_fn "eight88") :=
  c1_lookup_successor ringAB "eight88" (by decide) (by decide) (by decide)

/-! ## Claim C2 -/

/-- C2: on reachable rings, lookup fails with `EmptyRing` exactly when the
ring has no virtual nodes; otherwise it succeeds for every key and the
returned node is listed by `list_nodes`. -/
theorem c2_lookup_total (r : HashRing) (hr : Reachable r) (key : String) :
    (total_vnodes r = 0 → get_node_for_key r key = .error .EmptyRing) ∧
    (0 < total_vnodes r → ∃ nd, get_node_for_key r key = .ok nd ∧
      nd.node_id ∈ list_nodes r) := by
  have hinv := reachable_inv r hr
  constructor
  · intro h0
    exact get_node_empty r (List.length_eq_zero.mp h0) key
  · intro hpos
    have hne : r.positions ≠ [] := by
      intro h
      rw [total_vnodes, h] at hpos
      simp at hpos
    have hcov : ∀ p ∈ r.positions, (alookup r.vnode_at p).isSome := by
      intro p hp
      exact (hinv.pos_iff p).mp hp
    obtain ⟨p, vn, hp, hvn, heq, -, -⟩ := get_node_spec r hinv.sorted_pos hne hcov key
    obtain ⟨pl, hplk, -⟩ := hinv.vn_owner p vn hvn
    refine ⟨vn.physical, heq, ?_⟩
    rw [mem_list_nodes, hplk]
    rfl

/-- C2 at a concrete input: `ringAB` is reachable and nonempty, so lookup
of `"x"` succeeds with a listed member. -/
theorem c2_witness :
    ∃ nd, get_node_for_key ringAB "x" = .ok nd ∧
      nd.node_id ∈ list_nodes ringAB :=
  (c2_lookup_total ringAB ringAB_reachable "x").2 (by decide)

/-! ## Claim C3 -/

/-- C3: a successful `add_node` on a ring not containing the node records a
`vnodes_per_node`-element position list for it, grows the position list and
the position-to-vnode mapping by exactly that many entries, stores replica
`i` at the `i`-th recorded position, and every recorded position is the
hash of `candidateKey` at some attempt all of whose earlier candidates hit
occupied positions. -/
theorem c3_add_node_places_k (fuel : Nat) (r : HashRing) (node : Node)
    (r' : HashRing) (h : add_node fuel r node = some (.ok r')) :
    ∃ pl, alookup r'.positions_by_node node.node_id = some pl ∧
      pl.length = r.vnodes_per_node ∧
      r'.positions.length = r.positions.length + r.vnodes_per_node ∧
      r'.vnode_at.length = r.vnode_at.length + r.vnodes_per_node ∧
      ∀ i, ∀ hi : i < pl.length,
        alookup r'.vnode_at (pl.get ⟨i, hi⟩) = some ⟨node, i⟩ ∧
        alookup r.vnode_at (pl.get ⟨i, hi⟩) = none ∧
        ∃ a, pl.get ⟨i, hi⟩ =
            r.hash_fn (candidateKey (VNode.vnode_key ⟨node, i⟩) a) ∧
          ∀ b < a, (alookup r'.vnode_at
            (r.hash_fn (candidateKey (VNode.vnode_key ⟨node, i⟩) b))).isSome := by
  obtain ⟨habs, st, hpf, rfl⟩ := add_node_ok fuel r node r' h
  obtain ⟨newps, hpl, hlen, hposlen, hvalen, -, hget, hfresh, -, hprobe⟩ :=
    placeFrom_spec r.hash_fn fuel node r.vnodes_per_node
      ⟨r.positions, r.vnode_at, []⟩ 0 st hpf
  rw [List.nil_append] at hpl
  subst hpl
  refine ⟨st.pos_list, by rw [alookup_insertA_self], hlen, hposlen, hvalen, ?_⟩
  intro i hi
  refine ⟨?_, ?_, ?_⟩
  · have := hget i hi
    rw [Nat.zero_add] at this
    exact this
  · exact hfresh _ (List.get_mem _ _ _)
  · have := hprobe i hi
    rw [Nat.zero_add] at this
    exact this

/-- C3 at a concrete input: adding `"A"` with `K = 2` to the empty ring;
`"A#vn0"` and `"A#vn1"` both hash to 5, so replica 1 retries with
`"A#vn1@1"` (hash 7), exercising the collision policy. -/
theorem c3_witness :
    ∃ pl, alookup (HashRing.mk 2 String.length [5, 7]
        [(5, ⟨⟨"A"⟩, 0⟩), (7, ⟨⟨"A"⟩, 1⟩)] [("A", [5, 7])]).positions_by_node
        (Node.mk "A").node_id = some pl ∧
      pl.length = (HashRing.mk 2 String.length [] [] []).vnodes_per_node ∧
      (HashRing.mk 2 String.length [5, 7] [(5, ⟨⟨"A"⟩, 0⟩), (7, ⟨⟨"A"⟩, 1⟩)]
        [("A", [5, 7])]).positions.length =
        (HashRing.mk 2 String.length [] [] []).positions.length +
          (HashRing.mk 2 String.length [] [] []).vnodes_per_node ∧
      (HashRing.mk 2 String.length [5, 7] [(5, ⟨⟨"A"⟩, 0⟩), (7, ⟨⟨"A"⟩, 1⟩)]
        [("A", [5, 7])]).vnode_at.length =
        (HashRing.mk 2 String.length [] [] []).vnode_at.length +
          (HashRing.mk 2 String.length [] [] []).vnodes_per_node ∧
      ∀ i, ∀ hi : i < pl.length,
        alookup (HashRing.mk 2 String.length [5, 7]
          [(5, ⟨⟨"A"⟩, 0⟩), (7, ⟨⟨"A"⟩, 1⟩)] [("A", [5, 7])]).vnode_at
          (pl.get ⟨i, hi⟩) = some ⟨⟨"A"⟩, i⟩ ∧
        alookup (HashRing.mk 2 String.length [] [] []).vnode_at
          (pl.get ⟨i, hi⟩) = none ∧
        ∃ a, pl.get ⟨i, hi⟩ =
            (HashRing.mk 2 String.length [] [] []).hash_fn
              (candidateKey (VNode.vnode_key ⟨⟨"A"⟩, i⟩) a) ∧
          ∀ b < a, (alookup (HashRing.mk 2 String.length [5, 7]
            [(5, ⟨⟨"A"⟩, 0⟩), (7, ⟨⟨"A"⟩, 1⟩)] [("A", [5, 7])]).vnode_at
            ((HashRing.mk 2 String.length [] [] []).hash_fn
              (candidateKey (VNode.vnode_key ⟨⟨"A"⟩, i⟩) b))).isSome :=
  c3_add_node_places_k 3 (HashRing.mk 2 String.length [] [] []) ⟨"A"⟩
    (HashRing.mk 2 String.length [5, 7] [(5, ⟨⟨"A"⟩, 0⟩), (7, ⟨⟨"A"⟩, 1⟩)]
      [("A", [5, 7])]) rfl

/-! ## Claim C4 -/

/-- C4: every reachable ring satisfies the position-index invariant: the
position sequence is strictly ascending (hence duplicate-free), its
elements are exactly the keys of the position-to-vnode mapping, and each
replica of each registered node occupies exactly one position. -/
theorem c4_reachable_invariant (r : HashRing) (hr : Reachable r) :
    r.positions.Pairwise (fun a b => a < b) ∧
    (∀ p, p ∈ r.positions ↔ (alookup r.vnode_at p).isSome) ∧
    (∀ nid pl, alookup r.positions_by_node nid = some pl →
      ∀ i < r.vnodes_per_node,
        ∃! p, alookup r.vnode_at p = some ⟨⟨nid⟩, i⟩) := by
  have hinv := reachable_inv r hr
  refine ⟨hinv.sorted_pos, hinv.pos_iff, ?_⟩
  intro nid pl hplk i hi
  obtain ⟨hlen, hidx⟩ := hinv.owner_spec nid pl hplk
  have hi' : i < pl.length := by omega
  refine ⟨pl.get ⟨i, hi'⟩, hidx i hi', ?_⟩
  intro q hq
  obtain ⟨pl₂, hplk₂, hqpl₂⟩ := hinv.vn_owner q _ hq
  simp only at hplk₂
  rw [hplk] at hplk₂
  obtain rfl : pl = pl₂ := Option.some.inj hplk₂
  obtain ⟨j, hj⟩ := List.mem_iff_get.mp hqpl₂
  have hvj := hidx j.1 j.2
  rw [Fin.eta, hj] at hvj
  rw [hq] at hvj
  have hji : j.1 = i := by
    have h7 := congrArg VNode.replica_index (Option.some.inj hvj)
    simpa using h7.symm
  rw [← hj]
  congr 1
  exact Fin.ext hji

/-- C4 at a concrete input: the invariant for the reachable ring `ringAB`,
instantiated at position 5 and at replica 0 of node `"A"`. -/
theorem c4_witness :
    ringAB.positions.Pairwise (fun a b => a < b) ∧
    (5 ∈ ringAB.positions ↔ (alookup ringAB.vnode_at 5).isSome) ∧
    (∃! p, alookup ringAB.vnode_at p = some ⟨⟨"A"⟩, 0⟩) := by
  obtain ⟨h1, h2, h3⟩ := c4_reachable_invariant ringAB ringAB_reachable
  exact ⟨h1, h2 5, h3 "A" [5] rfl 0 (by decide)⟩

/-! ## Claim C10 -/

/-- C10: on every reachable ring, `remove_node` of a registered node
succeeds; in particular the internal `Ring corruption` branch (a position
missing from the sorted index) is unreachable. -/
theorem c10_remove_never_corrupts (r : HashRing) (hr : Reachable r)
    (nid : String) (hmem : (alookup r.positions_by_node nid).isSome) :
    (∃ r', remove_node r nid = .ok r') ∧
    remove_node r nid ≠ .error .RingCorruption := by
  obtain ⟨pl, hpl⟩ := Option.isSome_iff_exists.mp hmem
  obtain ⟨va', ps', heq, -, -⟩ :=
    remove_node_succeeds r (reachable_inv r hr) nid pl hpl
  refine ⟨⟨_, heq⟩, ?_⟩
  rw [heq]
  intro hcontra
  cases hcontra

/-- C10 at a concrete input: removing the registered node `"A"` from the
reachable ring `ringAB` succeeds. -/
theorem c10_witness :
    (∃ r', remove_node ringAB "A" = .ok r') ∧
    remove_node ringAB "A" ≠ .error .RingCorruption :=
  c10_remove_never_corrupts ringAB ringAB_reachable "A" (by decide)

/-! ## Claim C5 -/

/-- C5: after a successful `remove_node` of a registered node on a
reachable ring, the node is no longer listed, the virtual-node total has
dropped by exactly the length of its position list (which is
`vnodes_per_node`), and no key resolves to it. -/
theorem c5_remove_node_clean (r : HashRing) (hr : Reachable r) (nid : String)
    (pl : List Nat) (hplk : alookup r.positions_by_node nid = some pl)
    (r' : HashRing) (h : remove_node r nid = .ok r') :
    nid ∉ list_nodes r' ∧
    pl.length = r.vnodes_per_node ∧
    total_vnodes r = total_vnodes r' + pl.length ∧
    ∀ key, get_node_for_key r' key ≠ .ok ⟨nid⟩ := by
  have hinv := reachable_inv r hr
  have hinv' := reachable_inv r' (Reachable.remove r nid r' hr h)
  obtain ⟨pl₀, va, ps, hplk₀, heq₀, hr'⟩ := remove_node_ok_elim r nid r' h
  rw [hplk] at hplk₀
  obtain rfl : pl = pl₀ := Option.some.inj hplk₀
  obtain ⟨hnd, hall⟩ := inv_pl_props r hinv nid pl hplk
  obtain ⟨va₂, ps₂, heq₂, -, -, -, -, hlen⟩ :=
    removeLoop_ok pl r.vnode_at r.positions hinv.sorted_pos hinv.pos_iff
      hinv.vn_keys_nodup hnd hall
  rw [heq₂] at heq₀
  obtain ⟨hva, hps⟩ := Prod.mk.injEq .. ▸ Except.ok.inj heq₀
  subst hva
  subst hps
  refine ⟨?_, (hinv.owner_spec nid pl hplk).1, ?_, ?_⟩
  · rw [hr', mem_list_nodes]
    simp only
    rw [alookup_eraseA_self _ _ hinv.node_keys_nodup]
    simp
  · rw [total_vnodes, total_vnodes, hr']
    simp only
    omega
  · intro key hkey
    by_cases hps' : r'.positions = []
    · rw [get_node_empty r' hps' key] at hkey
      cases hkey
    · have hcov : ∀ p ∈ r'.positions, (alookup r'.vnode_at p).isSome := by
        intro p hp
        exact (hinv'.pos_iff p).mp hp
      obtain ⟨p, vn, hp, hvn, heqk, -, -⟩ :=
        get_node_spec r' hinv'.sorted_pos hps' hcov key
      rw [heqk] at hkey
      obtain hphys : vn.physical = ⟨nid⟩ := Except.ok.inj hkey
      obtain ⟨pl₂, hplk₂, -⟩ := hinv'.vn_owner p vn hvn
      rw [hphys] at hplk₂
      rw [hr'] at hplk₂
      simp only at hplk₂
      rw [alookup_eraseA_self _ _ hinv.node_keys_nodup] at hplk₂
      cases hplk₂

/-- C5 at a concrete input: removing `"A"` from `ringAB` yields `ringB`;
`"A"` is unlisted, the vnode total drops by its one position, and the key
`"u"` (every key) no longer resolves to `"A"`. -/
theorem c5_witness :
    "A" ∉ list_nodes ringB ∧
    ([5] : List Nat).length = ringAB.vnodes_per_node ∧
    total_vnodes ringAB = total_vnodes ringB + ([5] : List Nat).length ∧
    get_node_for_key ringB "u" ≠ .ok ⟨"A"⟩ := by
  obtain ⟨h1, h2, h3, h4⟩ := c5_remove_node_clean ringAB ringAB_reachable "A"
    [5] rfl ringB rfl
  exact ⟨h1, h2, h3, h4 "u"⟩

/-! ## Claim C6 -/

/-- C6: `add_node` of an already-registered identifier reports
`DuplicateNode` (for every fuel, i.e. before any placement work), and
`remove_node` of an unknown identifier reports `NodeNotFound`; in this
state-passing embedding an error result leaves the caller's ring
unchanged, matching the source, which raises both errors before any
mutation. -/
theorem c6_duplicate_unknown_errors (r : HashRing) (node : Node) (nid : String) :
    ((alookup r.positions_by_node node.node_id).isSome →
      ∀ fuel, add_node fuel r node = some (.error .DuplicateNode)) ∧
    (alookup r.positions_by_node nid = none →
      remove_node r nid = .error .NodeNotFound) := by
  constructor
  · intro hdup fuel
    unfold add_node
    rw [if_pos hdup]
  · intro hnone
    simp only [remove_node, hnone]

/-- C6 at a concrete input: re-adding `"A"` to `ringAB` reports
`DuplicateNode`; removing the unknown `"zzz"` reports `NodeNotFound`. -/
theorem c6_witness :
    add_node 3 ringAB ⟨"A"⟩ = some (.error .DuplicateNode) ∧
    remove_node ringAB "zzz" = .error .NodeNotFound :=
  ⟨(c6_duplicate_unknown_errors ringAB ⟨"A"⟩ "zzz").1 (by decide) 3,
   (c6_duplicate_unknown_errors ringAB ⟨"A"⟩ "zzz").2 (by decide)⟩

/-! ## Claim C8 -/

/-- C8: constructing a ring with `vnodes_per_node ≤ 0` fails with
`InvalidConfiguration`; with a positive count it yields the empty ring
carrying that count, and the count is fixed for the ring's lifetime: both
mutators preserve it. -/
theorem c8_constructor (K : Int) (hash : String → Nat) :
    (mkHashRing K hash = .error .InvalidConfiguration ↔ K ≤ 0) ∧
    (0 < K → mkHashRing K hash = .ok ⟨K.toNat, hash, [], [], []⟩) ∧
    (∀ fuel r node r', add_node fuel r node = some (.ok r') →
      r'.vnodes_per_node = r.vnodes_per_node) ∧
    (∀ r nid r', remove_node r nid = .ok r' →
      r'.vnodes_per_node = r.vnodes_per_node) := by
  refine ⟨?_, ?_, ?_, ?_⟩
  · constructor
    · intro h
      by_contra hk
      unfold mkHashRing at h
      rw [if_neg hk] at h
      cases h
    · intro hk
      unfold mkHashRing
      rw [if_pos hk]
  · intro hk
    unfold mkHashRing
    rw [if_neg (by omega)]
  · intro fuel r node r' h
    obtain ⟨-, st, -, rfl⟩ := add_node_ok fuel r node r' h
    rfl
  · intro r nid r' h
    obtain ⟨pl, va, ps, -, -, rfl⟩ := remove_node_ok_elim r nid r' h
    rfl

/-- C8 at concrete inputs: `K = -3` is rejected with
`InvalidConfiguration`; `K = 5` yields the empty ring with the count 5. -/
theorem c8_witness :
    mkHashRing (-3) String.length = .error .InvalidConfiguration ∧
    mkHashRing 5 String.length = .ok ⟨(5 : Int).toNat, String.length, [], [], []⟩ :=
  ⟨(c8_constructor (-3) String.length).1.mpr (by decide),
   (c8_constructor 5 String.length).2.1 (by decide)⟩

/-! ## Claim C7 -/

theorem countP_eq_card_filter_toFinset (l : List String) (hn : l.Nodup)
    (p : String → Prop) [DecidablePred p] :
    List.countP (fun k => decide (p k)) l = (l.toFinset.filter p).card := by
  rw [List.countP_eq_length_filter, ← List.toFinset_card_of_nodup
    (hn.filter (fun k => decide (p k)))]
  congr 1
  rw [List.toFinset_filter]
  apply Finset.filter_congr
  intro x hx
  simp

/-- C7: `moved_key_stats` reports `KeySetMismatch` exactly when the two
mappings' key sets differ; on identical key sets it returns the number of
keys whose mapped node differs, the number of keys, and that ratio as a
percentage. -/
theorem c7_moved_key_stats (before after : List (String × String))
    (hb : (before.map Prod.fst).Nodup) :
    (moved_key_stats before after = .error .KeySetMismatch ↔
      (before.map Prod.fst).toFinset ≠ (after.map Prod.fst).toFinset) ∧
    ((before.map Prod.fst).toFinset = (after.map Prod.fst).toFinset →
      moved_key_stats before after = .ok
        (((before.map Prod.fst).toFinset.filter
            (fun k => alookup before k ≠ alookup after k)).card,
         (before.map Prod.fst).toFinset.card,
         ((((before.map Prod.fst).toFinset.filter
            (fun k => alookup before k ≠ alookup after k)).card : ℚ) /
          ((before.map Prod.fst).toFinset.card : ℚ)) * 100)) := by
  have htotal : (before.map Prod.fst).length =
      (before.map Prod.fst).toFinset.card :=
    (List.toFinset_card_of_nodup hb).symm
  have hblen : before.length = (before.map Prod.fst).length := by
    simp
  constructor
  · constructor
    · intro h hset
      have hsk : sameKeys before after = true := (sameKeys_iff before after).mpr hset
      unfold moved_key_stats at h
      rw [if_pos hsk] at h
      cases h
    · intro hset
      have hsk : sameKeys before after = false := by
        by_contra hc
        have : sameKeys before after = true := by
          cases hsame : sameKeys before after
          · exact absurd hsame hc
          · rfl
        exact hset ((sameKeys_iff before after).mp this)
      unfold moved_key_stats
      rw [hsk]
      rfl
  · intro hset
    have hsk : sameKeys before after = true := (sameKeys_iff before after).mpr hset
    have hmoved : List.countP
        (fun k => decide (alookup before k ≠ alookup after k))
        (before.map Prod.fst) =
        ((before.map Prod.fst).toFinset.filter
          (fun k => alookup before k ≠ alookup after k)).card :=
      countP_eq_card_filter_toFinset _ hb _
    simp only [moved_key_stats, if_pos hsk, hmoved]
    by_cases h0 : before.length = 0
    · have hcard : (before.map Prod.fst).toFinset.card = 0 := by
        rw [← htotal, ← hblen]
        exact h0
      have hfcard : ((before.map Prod.fst).toFinset.filter
          (fun k => alookup before k ≠ alookup after k)).card = 0 := by
        have hle := Finset.card_filter_le (before.map Prod.fst).toFinset
          (fun k => alookup before k ≠ alookup after k)
        omega
      rw [if_pos h0, hblen, htotal, hfcard, hcard]
      norm_num
    · rw [if_neg h0, hblen, htotal]
  -- (arguments `after` left general: the hypothesis set equality does the work)

/-- C7 at concrete inputs: mappings with equal key sets, one key moved of
two (`50%`); total and moved agree with the set-level counts. -/
theorem c7_witness :
    moved_key_stats [("k1", "A"), ("k2", "B")] [("k2", "C"), ("k1", "A")] = .ok
      ((([("k1", "A"), ("k2", "B")].map Prod.fst).toFinset.filter
          (fun k => alookup [("k1", "A"), ("k2", "B")] k ≠
            alookup [("k2", "C"), ("k1", "A")] k)).card,
       (([("k1", "A"), ("k2", "B")].map Prod.fst).toFinset.card),
       (((([("k1", "A"), ("k2", "B")].map Prod.fst).toFinset.filter
          (fun k => alookup [("k1", "A"), ("k2", "B")] k ≠
            alookup [("k2", "C"), ("k1", "A")] k)).card : ℚ) /
        ((([("k1", "A"), ("k2", "B")].map Prod.fst).toFinset.card) : ℚ)) * 100) :=
  (c7_moved_key_stats [("k1", "A"), ("k2", "B")] [("k2", "C"), ("k1", "A")]
    (by decide)).2 (by decide)


/-! ## Claim C9 -/

theorem counterOf_ne_nil (vals : List String) (h : vals ≠ []) :
    counterOf vals ≠ [] := by
  intro hc
  obtain ⟨v, hv⟩ := List.exists_mem_of_ne_nil vals h
  have hmem := (counterOf_keys_mem vals v).mpr hv
  rw [hc] at hmem
  simp at hmem

theorem pcounts_ne_nil (m : List (String × String)) (h : m ≠ []) :
    pcounts m ≠ [] := by
  rw [pcounts]
  intro hc
  rw [List.map_eq_nil_iff] at hc
  refine counterOf_ne_nil (m.map Prod.snd) ?_ hc
  intro h2
  rw [List.map_eq_nil_iff] at h2
  exact h h2

theorem distribution_stats_eq (m : List (String × String))
    (h : pcounts m ≠ []) :
    distribution_stats m = ⟨((pcounts m).length : ℚ),
      ((pcounts m).map (fun v : Nat => (v : ℚ))).sum,
      ((pcounts m).map (fun v : Nat => (v : ℚ))).sum / ((pcounts m).length : ℚ),
      ((pcounts m).map (fun v : Nat => ((v : ℚ) -
        ((pcounts m).map (fun w : Nat => (w : ℚ))).sum / ((pcounts m).length : ℚ)) ^ 2)).sum
        / ((pcounts m).length : ℚ),
      (listMin (pcounts m) : ℚ), (listMax (pcounts m) : ℚ)⟩ := by
  simp only [distribution_stats]
  rw [if_neg h]

theorem pcounts_sum (m : List (String × String)) :
    (pcounts m).sum = m.length := by
  rw [pcounts]
  have h1 : ((counterOf (m.map Prod.snd)).map Prod.snd).sum =
      (m.map Prod.snd).length := counterOf_sum (m.map Prod.snd)
  rw [h1]
  simp

theorem sum_map_cast (l : List Nat) :
    (l.map (fun v : Nat => (v : ℚ))).sum = ((l.sum : Nat) : ℚ) := by
  induction l with
  | nil => simp
  | cons v t ih =>
    rw [List.map_cons, List.sum_cons, ih, List.sum_cons, Nat.cast_add]

theorem sum_sq_dev_nonneg_nat (vs : List Nat) (μ : ℚ) :
    0 ≤ (vs.map (fun v : Nat => ((v : ℚ) - μ) ^ 2)).sum := by
  apply List.sum_nonneg
  intro y hy
  obtain ⟨x, -, rfl⟩ := List.mem_map.mp hy
  exact sq_nonneg _

theorem pvariance_alt_nat (vs : List Nat) (hne : vs ≠ []) :
    ((vs.map (fun v : Nat => ((v : ℚ) -
        (vs.map (fun w : Nat => (w : ℚ))).sum / (vs.length : ℚ)) ^ 2)).sum)
        / (vs.length : ℚ)
      = (vs.map (fun v : Nat => (v : ℚ) ^ 2)).sum / (vs.length : ℚ)
        - ((vs.map (fun w : Nat => (w : ℚ))).sum / (vs.length : ℚ)) ^ 2 := by
  have hn0 : ((vs.length : Nat) : ℚ) ≠ 0 := by
    have hpos := List.length_pos.mpr hne
    exact_mod_cast Nat.pos_iff_ne_zero.mp hpos
  have hdev := sum_sq_dev (vs.map (fun w : Nat => (w : ℚ)))
      ((vs.map (fun w : Nat => (w : ℚ))).sum / (vs.length : ℚ))
  rw [List.map_map, List.map_map, List.length_map] at hdev
  simp only [Function.comp_def] at hdev
  rw [hdev]
  field_simp
  ring

/-- C9: `distribution_stats` is total; on the empty mapping it returns all
zeros; otherwise the tally is the per-node occurrence count, `nodes` is
the number of distinct node identifiers, `keys` is the number of mapping
entries, `mean * nodes = keys`, the variance satisfies the population
identity `variance = sum of squared counts / n − mean²` and is
nonnegative (so its square root, the population standard deviation,
squares back to it), and `min`/`max` are attained bounds of the per-node
counts. -/
theorem c9_distribution_stats (m : List (String × String)) :
    (m = [] → distribution_stats m = ⟨0, 0, 0, 0, 0, 0⟩) ∧
    (∀ v ∈ m.map Prod.snd,
      alookup (counterOf (m.map Prod.snd)) v =
        some ((m.map Prod.snd).count v)) ∧
    (m ≠ [] →
      (distribution_stats m).nodes = ((m.map Prod.snd).dedup.length : ℚ) ∧
      (distribution_stats m).keys = (m.length : ℚ) ∧
      (distribution_stats m).mean * (distribution_stats m).nodes =
        (distribution_stats m).keys ∧
      (distribution_stats m).variance =
        ((pcounts m).map (fun v : Nat => (v : ℚ) ^ 2)).sum / ((pcounts m).length : ℚ)
          - (distribution_stats m).mean ^ 2 ∧
      0 ≤ (distribution_stats m).variance ∧
      Real.sqrt ((distribution_stats m).variance : ℝ) ^ 2 =
        ((distribution_stats m).variance : ℝ) ∧
      (∃ v ∈ pcounts m, (distribution_stats m).min = (v : ℚ)) ∧
      (∀ v ∈ pcounts m, (distribution_stats m).min ≤ (v : ℚ) ∧
        (v : ℚ) ≤ (distribution_stats m).max) ∧
      (∃ v ∈ pcounts m, (distribution_stats m).max = (v : ℚ))) := by
  refine ⟨?_, ?_, ?_⟩
  · intro h
    subst h
    rfl
  · intro v hv
    rw [counterOf_lookup]
    rw [if_pos (List.count_pos_iff.mpr hv)]
  · intro hne
    have hvne : pcounts m ≠ [] := pcounts_ne_nil m hne
    have hlenpos : 0 < (pcounts m).length := List.length_pos.mpr hvne
    have hn0 : (((pcounts m).length : Nat) : ℚ) ≠ 0 := by
      exact_mod_cast Nat.pos_iff_ne_zero.mp hlenpos
    have hnonneg : (0 : ℚ) ≤
        ((pcounts m).map (fun v : Nat => ((v : ℚ) -
          ((pcounts m).map (fun w : Nat => (w : ℚ))).sum /
            (((pcounts m).length : Nat) : ℚ)) ^ 2)).sum /
          (((pcounts m).length : Nat) : ℚ) := by
      apply div_nonneg (sum_sq_dev_nonneg_nat _ _)
      positivity
    rw [distribution_stats_eq m hvne]
    refine ⟨?_, ?_, ?_, ?_, ?_, ?_, ?_, ?_, ?_⟩
    · simp only
      rw [pcounts, List.length_map, counterOf_length]
    · simp only
      rw [sum_map_cast, pcounts_sum]
    · simp only
      exact div_mul_cancel₀ _ hn0
    · simp only
      exact pvariance_alt_nat (pcounts m) hvne
    · simp only
      exact hnonneg
    · simp only
      apply Real.sq_sqrt
      exact_mod_cast hnonneg
    · exact ⟨listMin (pcounts m), listMin_mem _ hvne, rfl⟩
    · intro v hv
      constructor
      · simp only
        exact_mod_cast listMin_le _ v hv
      · simp only
        exact_mod_cast listMax_ge _ v hv
    · exact ⟨listMax (pcounts m), listMax_mem _ hvne, rfl⟩

/-- C9 at concrete inputs: all-zero statistics on the empty mapping; on a
three-key mapping (`A` twice, `B` once) the tally of `"A"` is its
occurrence count, `keys` is 3 and the variance is nonnegative. -/
theorem c9_witness :
    distribution_stats ([] : List (String × String)) = ⟨0, 0, 0, 0, 0, 0⟩ ∧
    alookup (counterOf (([("k1", "A"), ("k2", "B"), ("k3", "A")].map Prod.snd)))
        "A" =
      some (([("k1", "A"), ("k2", "B"), ("k3", "A")].map Prod.snd).count "A") ∧
    (distribution_stats [("k1", "A"), ("k2", "B"), ("k3", "A")]).keys = (3 : ℚ) ∧
    0 ≤ (distribution_stats [("k1", "A"), ("k2", "B"), ("k3", "A")]).variance := by
  obtain ⟨-, hc, hrest⟩ :=
    c9_distribution_stats [("k1", "A"), ("k2", "B"), ("k3", "A")]
  obtain ⟨-, hkeys, -, -, hnn, -⟩ := hrest (List.cons_ne_nil _ _)
  refine ⟨(c9_distribution_stats []).1 rfl, hc "A" (by decide), ?_, hnn⟩
  rw [hkeys]
  norm_num
